import Mathlib

/-!
Verification of the OTUI editor core (src/otui_editor_pro.py): the
indentation-driven parser/serializer (`OTUIParser.parse_text` /
`OTUIParser.to_string`) and the asset-resolution helpers
(`collect_image_sources`, `discover_images_base`, `resolve_image`).

Strings are modelled as `List Char`.  Python `str.splitlines`,
`str.strip` and friends are modelled below; the whitespace and
line-boundary sets cover the ASCII and Latin-1 range plus the Unicode
line/paragraph separators (the exotic Unicode spaces such as the ogham
space mark are omitted; no claim depends on them).
-/

def toL (s : String) : List Char := s.data

/-- Apostrophe character (U+0027). -/
def aposC : Char := Char.ofNat 39

/-- Double-quote character (U+0022). -/
def quotC : Char := Char.ofNat 34

/-- Backslash character (U+005C). -/
def bslashC : Char := Char.ofNat 92

/-- Whitespace for Python `str.strip()` / `str.lstrip()`. -/
def isPySpace (c : Char) : Bool :=
  c = ' ' || c = Char.ofNat 9 || c = Char.ofNat 10 || c = Char.ofNat 11 ||
  c = Char.ofNat 12 || c = Char.ofNat 13 || c = Char.ofNat 28 || c = Char.ofNat 29 ||
  c = Char.ofNat 30 || c = Char.ofNat 31 || c = Char.ofNat 133 || c = Char.ofNat 160

/-- Line boundaries for Python `str.splitlines`. -/
def isLineBreakC (c : Char) : Bool :=
  c = Char.ofNat 10 || c = Char.ofNat 13 || c = Char.ofNat 11 || c = Char.ofNat 12 ||
  c = Char.ofNat 28 || c = Char.ofNat 29 || c = Char.ofNat 30 || c = Char.ofNat 133 ||
  c = Char.ofNat 0x2028 || c = Char.ofNat 0x2029

/-- Python `str.splitlines`: split at each boundary (`\r\n` counts as one);
the final segment is kept only when nonempty. `acc` holds the current
line reversed. -/
def pySplitLinesAcc : List Char → List Char → List (List Char)
  | [], acc => if acc.isEmpty then [] else [acc.reverse]
  | [c], acc =>
    if isLineBreakC c then acc.reverse :: pySplitLinesAcc [] []
    else pySplitLinesAcc [] (c :: acc)
  | c :: c2 :: rest, acc =>
    if c = '\r' && c2 = '\n' then acc.reverse :: pySplitLinesAcc rest []
    else if isLineBreakC c then acc.reverse :: pySplitLinesAcc (c2 :: rest) []
    else pySplitLinesAcc (c2 :: rest) (c :: acc)

def pySplitLines (s : List Char) : List (List Char) := pySplitLinesAcc s []

/-- Python `str.lstrip()`. -/
def pyLstrip (s : List Char) : List Char := s.dropWhile isPySpace

/-- Python `str.rstrip()`. -/
def pyRstrip (s : List Char) : List Char := (s.reverse.dropWhile isPySpace).reverse

/-- Python `str.strip()`. -/
def pyStrip (s : List Char) : List Char := pyRstrip (pyLstrip s)

/-- Python `str.rstrip("\n")` (strips only newline characters on the right). -/
def rstripNl (s : List Char) : List Char := (s.reverse.dropWhile (· = '\n')).reverse

/-- Python `str.strip(c)` for a single-character argument: removes every
leading and trailing occurrence of `c`. -/
def stripCharBoth (c : Char) (s : List Char) : List Char :=
  ((s.dropWhile (· = c)).reverse.dropWhile (· = c)).reverse

/-- Does the line (already left-stripped) start with the `//` comment marker?
(Python `stripped.startswith("//")`: the first two characters are slashes.) -/
def startsWithSlashes (s : List Char) : Bool := s.take 2 == ['/', '/']

/-- The tree node of the document model (`OTUINode` in the source):
tag, value, stored depth, ordered children. -/
inductive OTUINode where
  | mk (tag value : List Char) (depth : Int) (children : List OTUINode)

def OTUINode.tag : OTUINode → List Char
  | .mk t _ _ _ => t

def OTUINode.value : OTUINode → List Char
  | .mk _ v _ _ => v

def OTUINode.depth : OTUINode → Int
  | .mk _ _ d _ => d

def OTUINode.children : OTUINode → List OTUINode
  | .mk _ _ _ cs => cs

/-- One entry of the parser's open-node stack.  The Python code mutates
nodes in place (a node is appended to its parent's `children` when pushed
and extended while it is on the stack); here a stack entry keeps its
children collected so far in reverse, and is folded into its parent when
it is popped, which yields the same final tree. -/
structure Frame where
  ftag : List Char
  fvalue : List Char
  fdepth : Int
  childrenRev : List OTUINode

def Frame.toNode (f : Frame) : OTUINode :=
  .mk f.ftag f.fvalue f.fdepth f.childrenRev.reverse

/-- The parser's pop loop `while stack and d <= stack[-1].depth: stack.pop()`.
`pend` carries the node of the frame popped just before (already linked to
its parent in the Python original).  The `[]` cases are unreachable from the
initial stack because the root frame has depth `-1 < d` and is never popped. -/
def popAccum (d : Int) : List Frame → Option OTUINode → List Frame
  | [], _ => []
  | f :: rest, pend =>
    let f' := match pend with
      | some n => { f with childrenRev := n :: f.childrenRev }
      | none => f
    if d ≤ f'.fdepth then popAccum d rest (some f'.toNode) else f' :: rest

/-- Processing of one raw line of `OTUIParser.parse_text`. -/
def parse_line (indent_size : Nat) (stack : List Frame) (raw : List Char) : List Frame :=
  let raw_line := rstripNl raw
  let stripped := pyLstrip raw_line
  if stripped.isEmpty then stack
  else
    let d : Int := ((raw_line.length - stripped.length) / indent_size : Nat)
    let stack' := popAccum d stack none
    let fr : Frame :=
      if startsWithSlashes stripped then
        ⟨['/', '/'], pyStrip (stripped.drop 2), d, []⟩
      else if (':') ∈ stripped then
        ⟨pyStrip (stripped.takeWhile (· ≠ ':')),
         pyStrip ((stripped.dropWhile (· ≠ ':')).drop 1), d, []⟩
      else ⟨pyStrip stripped, [], d, []⟩
    fr :: stack'

/-- Fold the whole remaining stack back into the root node (in the Python
original every node is already linked into the tree when it is pushed, so
returning `root` at the end has this effect). -/
def finishAccum : List Frame → Option OTUINode → OTUINode
  | [], pend =>
    match pend with
    | some n => n
    | none => .mk (toL "Root") [] (-1) []
  | f :: rest, pend =>
    let f' := match pend with
      | some n => { f with childrenRev := n :: f.childrenRev }
      | none => f
    finishAccum rest (some f'.toNode)

def rootFrame : Frame := ⟨toL "Root", [], -1, []⟩

/-- `OTUIParser.parse_text` (with the parser's `indent_size` made explicit). -/
def parse_text (indent_size : Nat) (text : List Char) : OTUINode :=
  finishAccum ((pySplitLines text).foldl (parse_line indent_size) [rootFrame]) none

mutual

/-- The inner `write(n, d)` of `OTUIParser.to_string`, returning the emitted
lines.  Note two quirks of the source, reproduced faithfully: a node whose
tag is `"Root"` is not emitted and its children are rendered at depth `0`,
and for a comment node (`tag == "//"`) the children loop is inside the
`else` branch, so a comment's children are not visited at all. -/
def write (indent_size : Nat) : OTUINode → Nat → List (List Char)
  | .mk t v _ cs, d =>
    if t = toL "Root" then writeAll indent_size cs 0
    else
      let indent := List.replicate (d * indent_size) ' '
      if t = ['/', '/'] then [indent ++ ['/', '/', ' '] ++ v]
      else if v.isEmpty then (indent ++ t) :: writeAll indent_size cs (d + 1)
      else (indent ++ t ++ [':', ' '] ++ v) :: writeAll indent_size cs (d + 1)

def writeAll (indent_size : Nat) : List OTUINode → Nat → List (List Char)
  | [], _ => []
  | c :: cs, d => write indent_size c d ++ writeAll indent_size cs d

end

/-- Python `"\n".join(lines)`. -/
def joinLines : List (List Char) → List Char
  | [] => []
  | [l] => l
  | l :: ls => l ++ '\n' :: joinLines ls

/-- `OTUIParser.to_string`: `"\n".join(out) + ("\n" if out else "")`. -/
def to_string (indent_size : Nat) (root : OTUINode) : List Char :=
  let out := write indent_size root 0
  joinLines out ++ (if out.isEmpty then [] else ['\n'])

mutual

/-- Number of nodes in a tree (the node itself plus all descendants). -/
def nsize : OTUINode → Nat
  | .mk _ _ _ cs => 1 + lsize cs

def lsize : List OTUINode → Nat
  | [] => 0
  | c :: cs => nsize c + lsize cs

end

mutual

/-- Structural tree equality ignoring the stored depth field:
same tag, same value, same children in the same order, recursively. -/
def treeEq : OTUINode → OTUINode → Bool
  | .mk t1 v1 _ cs1, .mk t2 v2 _ cs2 => t1 == t2 && v1 == v2 && ltreeEq cs1 cs2

def ltreeEq : List OTUINode → List OTUINode → Bool
  | [], [] => true
  | c :: cs, c2 :: cs2 => treeEq c c2 && ltreeEq cs cs2
  | _, _ => false

end

mutual

/-- Rebuild a tree with canonical depths: the node gets depth `d`, its
children `d + 1`, and so on (tags, values and structure unchanged).
This is the depth assignment a reparse of the serializer's output makes. -/
def canonN : OTUINode → Int → OTUINode
  | .mk t v _ cs, d => .mk t v d (canonL cs (d + 1))

def canonL : List OTUINode → Int → List OTUINode
  | [], _ => []
  | c :: cs, d => canonN c d :: canonL cs d

end

mutual

/-- Shape invariant of every node produced by `parse_text`: tag and value
are `strip`-fixed, the tag contains no colon and no line break, the value
contains no line break, and a tag starting with `//` is exactly `//`. -/
def parsedInvN : OTUINode → Bool
  | .mk t v _ cs =>
    pyStrip t == t && pyStrip v == v &&
    t.all (fun c => !(c == ':')) &&
    t.all (fun c => !isLineBreakC c) && v.all (fun c => !isLineBreakC c) &&
    (!startsWithSlashes t || t == ['/', '/']) &&
    parsedInvL cs

def parsedInvL : List OTUINode → Bool
  | [] => true
  | c :: cs => parsedInvN c && parsedInvL cs

end

mutual

/-- Conditions under which a (sub)tree survives serialization untouched:
no node tagged `Root` (such nodes are skipped by `write`), no node with
both tag and value empty (its line would be blank and dropped on reparse),
and no comment node with children (`write` does not visit them). -/
def serializableN : OTUINode → Bool
  | .mk t v _ cs =>
    t != toL "Root" && !(t.isEmpty && v.isEmpty) &&
    (t != ['/', '/'] || cs.isEmpty) && serializableL cs

def serializableL : List OTUINode → Bool
  | [] => true
  | c :: cs => serializableN c && serializableL cs

end

/-- The serializability conditions applied to everything below the root. -/
def serializableTree (root : OTUINode) : Bool := serializableL root.children

/-! ### Facts about the modelled Python string primitives -/

theorem pyRstrip_eq_rdropWhile (s : List Char) :
    pyRstrip s = List.rdropWhile isPySpace s := rfl

theorem length_pyLstrip_le (s : List Char) : (pyLstrip s).length ≤ s.length :=
  (List.dropWhile_suffix _).length_le

theorem length_pyRstrip_le (s : List Char) : (pyRstrip s).length ≤ s.length := by
  have h := (List.dropWhile_suffix (l := s.reverse) isPySpace).length_le
  simpa [pyRstrip] using h

theorem pyLstrip_eq_self_of_length (s : List Char)
    (h : (pyLstrip s).length = s.length) : pyLstrip s = s :=
  (List.dropWhile_suffix _).eq_of_length h

theorem pyLstrip_of_strip_fix {s : List Char} (h : pyStrip s = s) : pyLstrip s = s := by
  apply pyLstrip_eq_self_of_length
  have h1 := length_pyRstrip_le (pyLstrip s)
  have h2 := length_pyLstrip_le s
  have : (pyStrip s).length = s.length := by rw [h]
  simp only [pyStrip] at this
  omega

theorem head_not_space_of_lstrip_fix {c : Char} {u : List Char}
    (h : pyLstrip (c :: u) = c :: u) : isPySpace c = false := by
  by_contra hc
  have hc' : isPySpace c = true := by
    cases hcc : isPySpace c
    · exact absurd hcc hc
    · rfl
  have : pyLstrip (c :: u) = pyLstrip u := by
    simp [pyLstrip, List.dropWhile_cons_of_pos hc']
  rw [this] at h
  have := length_pyLstrip_le u
  have : (pyLstrip u).length = (c :: u).length := by rw [h]
  simp at this
  omega

theorem head_not_space_of_strip_fix {c : Char} {u : List Char}
    (h : pyStrip (c :: u) = c :: u) : isPySpace c = false :=
  head_not_space_of_lstrip_fix (pyLstrip_of_strip_fix h)

theorem pyLstrip_cons_of_not {c : Char} (u : List Char) (h : isPySpace c = false) :
    pyLstrip (c :: u) = c :: u := by
  have h' : ¬ (isPySpace c = true) := by simp [h]
  simp [pyLstrip, List.dropWhile_cons_of_neg h']

theorem pyLstrip_append_of_strip_fix {t : List Char} (r : List Char)
    (ht : pyStrip t = t) (hne : t ≠ []) : pyLstrip (t ++ r) = t ++ r := by
  cases t with
  | nil => exact absurd rfl hne
  | cons c u =>
    have := head_not_space_of_strip_fix ht
    simpa using pyLstrip_cons_of_not (u ++ r) this

theorem pyLstrip_replicate_space_append (k : Nat) (s : List Char) :
    pyLstrip (List.replicate k ' ' ++ s) = pyLstrip s := by
  have h : ∀ a ∈ List.replicate k ' ', isPySpace a = true := by
    intro a ha
    rw [List.eq_of_mem_replicate ha]
    decide
  simp only [pyLstrip]
  rw [List.dropWhile_append_of_pos h]

theorem pyLstrip_idem (s : List Char) : pyLstrip (pyLstrip s) = pyLstrip s :=
  List.dropWhile_idempotent _ _

theorem pyRstrip_idem (s : List Char) : pyRstrip (pyRstrip s) = pyRstrip s := by
  simpa [pyRstrip_eq_rdropWhile] using List.rdropWhile_idempotent (p := isPySpace) (l := s)

/-- `pyRstrip` removes characters only at the end: it is an initial segment. -/
theorem pyRstrip_append_exists (s : List Char) : ∃ q, pyRstrip s ++ q = s := by
  obtain ⟨pre, hpre⟩ := List.dropWhile_suffix (l := s.reverse) isPySpace
  refine ⟨pre.reverse, ?_⟩
  have := congrArg List.reverse hpre
  simpa [pyRstrip] using this

theorem pyLstrip_pyRstrip_of_lstrip_fix {s : List Char} (h : pyLstrip s = s) :
    pyLstrip (pyRstrip s) = pyRstrip s := by
  cases s with
  | nil => simp [pyRstrip, pyLstrip]
  | cons c u =>
    have hc := head_not_space_of_lstrip_fix h
    obtain ⟨q, hq⟩ := pyRstrip_append_exists (c :: u)
    cases hr : pyRstrip (c :: u) with
    | nil => simp [pyLstrip]
    | cons c2 u2 =>
      rw [hr] at hq
      have hc2 : c2 = c := by
        have h2 : c2 :: (u2 ++ q) = c :: u := by simpa using hq
        injection h2 with h3 h4
      subst hc2
      exact pyLstrip_cons_of_not u2 hc

theorem pyStrip_idem (s : List Char) : pyStrip (pyStrip s) = pyStrip s := by
  simp only [pyStrip]
  rw [pyLstrip_pyRstrip_of_lstrip_fix (pyLstrip_idem s), pyRstrip_idem]

theorem pyStrip_cons_space {c : Char} (s : List Char) (h : isPySpace c = true) :
    pyStrip (c :: s) = pyStrip s := by
  simp [pyStrip, pyLstrip, List.dropWhile_cons_of_pos h]

theorem mem_of_mem_pyLstrip {c : Char} {s : List Char} (h : c ∈ pyLstrip s) : c ∈ s :=
  (List.dropWhile_sublist _).mem h

theorem mem_of_mem_pyRstrip {c : Char} {s : List Char} (h : c ∈ pyRstrip s) : c ∈ s := by
  simp only [pyRstrip, List.mem_reverse] at h
  have := (List.dropWhile_sublist (l := s.reverse) isPySpace).mem h
  simpa using this

theorem mem_of_mem_pyStrip {c : Char} {s : List Char} (h : c ∈ pyStrip s) : c ∈ s :=
  mem_of_mem_pyLstrip (mem_of_mem_pyRstrip h)

theorem rstripNl_eq_self {s : List Char} (h : '\n' ∉ s) : rstripNl s = s := by
  unfold rstripNl
  have : s.reverse.dropWhile (· = '\n') = s.reverse := by
    rw [List.dropWhile_eq_self_iff]
    intro hl hc
    have : s.reverse.get ⟨0, hl⟩ ∈ s.reverse := List.get_mem _ _ _
    rw [List.mem_reverse] at this
    apply h
    have hcc : s.reverse.get ⟨0, hl⟩ = '\n' := by simpa using hc
    rwa [hcc] at this
  rw [this, List.reverse_reverse]

/-! ### Facts about the parser's stack machine -/

/-- Folding a pending popped node into the frame that receives it. -/
def mergePend (f : Frame) : Option OTUINode → Frame
  | some n => { f with childrenRev := n :: f.childrenRev }
  | none => f

theorem mergePend_fdepth (f : Frame) (pend : Option OTUINode) :
    (mergePend f pend).fdepth = f.fdepth := by cases pend <;> rfl

theorem mergePend_ftag (f : Frame) (pend : Option OTUINode) :
    (mergePend f pend).ftag = f.ftag := by cases pend <;> rfl

theorem mergePend_fvalue (f : Frame) (pend : Option OTUINode) :
    (mergePend f pend).fvalue = f.fvalue := by cases pend <;> rfl

theorem mergePend_none (f : Frame) : mergePend f none = f := rfl

theorem popAccum_unfold (d : Int) (f : Frame) (rest : List Frame) (pend : Option OTUINode) :
    popAccum d (f :: rest) pend =
      if d ≤ f.fdepth then popAccum d rest (some (mergePend f pend).toNode)
      else mergePend f pend :: rest := by
  cases pend <;> rfl

theorem popAccum_nil (d : Int) (pend : Option OTUINode) : popAccum d [] pend = [] := rfl

theorem popAccum_noop {d : Int} {f : Frame} (rest : List Frame) (h : f.fdepth < d) :
    popAccum d (f :: rest) none = f :: rest := by
  rw [popAccum_unfold, if_neg (not_le.mpr h), mergePend_none]

theorem finishAccum_unfold (f : Frame) (rest : List Frame) (pend : Option OTUINode) :
    finishAccum (f :: rest) pend = finishAccum rest (some (mergePend f pend).toNode) := by
  cases pend <;> rfl

theorem finishAccum_single (f : Frame) : finishAccum [f] none = f.toNode := rfl

/-- Popping first with a larger threshold `d` and then with `e ≤ d` is the
same as popping with `e` directly. -/
theorem popAccum_popAccum {e d : Int} (hed : e ≤ d) :
    ∀ (S : List Frame) (pend : Option OTUINode),
      popAccum e (popAccum d S pend) none = popAccum e S pend := by
  intro S
  induction S with
  | nil => intro pend; simp [popAccum_nil]
  | cons f rest ih =>
    intro pend
    have key : ∀ (g : Frame), popAccum e (popAccum d (g :: rest) none) none =
        popAccum e (g :: rest) none := by
      intro g
      by_cases hd : d ≤ g.fdepth
      · rw [popAccum_unfold, if_pos hd, mergePend_none, ih (some g.toNode),
          popAccum_unfold, if_pos (le_trans hed hd), mergePend_none]
      · rw [popAccum_unfold, if_neg hd, mergePend_none]
    calc popAccum e (popAccum d (f :: rest) pend) none
        = popAccum e (popAccum d (mergePend f pend :: rest) none) none := by
          simp only [popAccum_unfold, mergePend_none, mergePend_fdepth]
      _ = popAccum e (mergePend f pend :: rest) none := key _
      _ = popAccum e (f :: rest) pend := by
          simp only [popAccum_unfold, mergePend_none, mergePend_fdepth]

/-- Finishing after a pop that cannot reach the bottom frame is the same as
finishing directly: the pop performs a prefix of the same merges. -/
theorem finish_popAccum :
    ∀ (S₀ : List Frame) (fr : Frame) (pend : Option OTUINode) (d : Int),
      fr.fdepth < d →
      finishAccum (popAccum d (S₀ ++ [fr]) pend) none = finishAccum (S₀ ++ [fr]) pend := by
  intro S₀
  induction S₀ with
  | nil =>
    intro fr pend d hlt
    simp only [List.nil_append]
    rw [popAccum_unfold, if_neg (not_le.mpr hlt), finishAccum_unfold,
      finishAccum_unfold, mergePend_none]
  | cons g S₀' ih =>
    intro fr pend d hlt
    simp only [List.cons_append]
    rw [popAccum_unfold]
    by_cases hd : d ≤ g.fdepth
    · rw [if_pos hd, ih _ _ _ hlt, finishAccum_unfold]
    · rw [if_neg hd, finishAccum_unfold, finishAccum_unfold, mergePend_none]

/-- The head of a nonempty pop result has depth strictly below the threshold. -/
theorem popAccum_head_lt {d : Int} :
    ∀ (S : List Frame) (pend : Option OTUINode) (f : Frame) (rest : List Frame),
      popAccum d S pend = f :: rest → f.fdepth < d := by
  intro S
  induction S with
  | nil => intro pend f rest h; simp [popAccum_nil] at h
  | cons g S' ih =>
    intro pend f rest h
    rw [popAccum_unfold] at h
    by_cases hd : d ≤ g.fdepth
    · rw [if_pos hd] at h
      exact ih _ _ _ h
    · rw [if_neg hd] at h
      have hf : f = mergePend g pend := (List.cons.injEq _ _ _ _ ▸ h).1.symm
      rw [hf, mergePend_fdepth]
      exact not_le.mp hd

/-- The stack always keeps a bottom frame of depth `-1` (the root frame);
its tag and value are also preserved. -/
def BotInv (S : List Frame) : Prop :=
  ∃ S₀ fr, S = S₀ ++ [fr] ∧ fr.fdepth = -1 ∧ fr.ftag = toL "Root" ∧ fr.fvalue = []

theorem popAccum_bot :
    ∀ (S₀ : List Frame) (fr : Frame) (pend : Option OTUINode) (d : Int),
      fr.fdepth < d →
      ∃ S₀' fr', popAccum d (S₀ ++ [fr]) pend = S₀' ++ [fr'] ∧
        fr'.fdepth = fr.fdepth ∧ fr'.ftag = fr.ftag ∧ fr'.fvalue = fr.fvalue := by
  intro S₀
  induction S₀ with
  | nil =>
    intro fr pend d hlt
    refine ⟨[], mergePend fr pend, ?_, ?_, ?_, ?_⟩
    · simp only [List.nil_append]
      rw [popAccum_unfold, if_neg (not_le.mpr hlt)]
    · exact mergePend_fdepth _ _
    · exact mergePend_ftag _ _
    · exact mergePend_fvalue _ _
  | cons g S₀' ih =>
    intro fr pend d hlt
    simp only [List.cons_append]
    rw [popAccum_unfold]
    by_cases hd : d ≤ g.fdepth
    · rw [if_pos hd]
      exact ih _ _ _ hlt
    · rw [if_neg hd]
      obtain ⟨S₁, fr', h1, h2, h3, h4⟩ :
          ∃ S₁ fr', S₀' ++ [fr] = S₁ ++ [fr'] ∧ fr'.fdepth = fr.fdepth ∧
            fr'.ftag = fr.ftag ∧ fr'.fvalue = fr.fvalue := ⟨S₀', fr, rfl, rfl, rfl, rfl⟩
      exact ⟨mergePend g pend :: S₁, fr', by rw [h1]; rfl, h2, h3, h4⟩

theorem botInv_cons {S : List Frame} (f : Frame) (h : BotInv S) : BotInv (f :: S) := by
  obtain ⟨S₀, fr, hS, h1, h2, h3⟩ := h
  exact ⟨f :: S₀, fr, by rw [hS]; rfl, h1, h2, h3⟩

theorem botInv_popAccum {S : List Frame} (pend : Option OTUINode) {d : Int}
    (hd : -1 < d) (h : BotInv S) : BotInv (popAccum d S pend) := by
  obtain ⟨S₀, fr, hS, h1, h2, h3⟩ := h
  subst hS
  obtain ⟨S₀', fr', hEq, hd', ht', hv'⟩ := popAccum_bot S₀ fr pend d (by omega)
  exact ⟨S₀', fr', hEq, by rw [hd', h1], by rw [ht', h2], by rw [hv', h3]⟩

/-! ### Parsing the serializer's rendered lines -/

theorem nl_not_mem_render (k : Nat) {content : List Char} (h : '\n' ∉ content) :
    '\n' ∉ (List.replicate k ' ' ++ content) := by
  intro hmem
  rcases List.mem_append.mp hmem with h1 | h2
  · exact absurd (List.eq_of_mem_replicate h1) (by decide)
  · exact h h2

theorem startsWithSlashes_two (l : List Char) :
    startsWithSlashes ('/' :: '/' :: l) = true := by
  simp [startsWithSlashes]

/-- Reduction of `parse_line` on a line of the shape the renderer emits:
indentation spaces followed by a content whose left strip is itself. -/
theorem parse_line_render {isz : Nat} (hisz : 0 < isz) (stack : List Frame)
    (d : Nat) {content : List Char}
    (hnl : '\n' ∉ content) (hls : pyLstrip content = content) (hne : content ≠ []) :
    parse_line isz stack (List.replicate (d * isz) ' ' ++ content) =
      (let stack' := popAccum (d : Int) stack none
       let fr : Frame :=
         if startsWithSlashes content then
           ⟨['/', '/'], pyStrip (content.drop 2), (d : Int), []⟩
         else if (':') ∈ content then
           ⟨pyStrip (content.takeWhile (· ≠ ':')),
            pyStrip ((content.dropWhile (· ≠ ':')).drop 1), (d : Int), []⟩
         else ⟨pyStrip content, [], (d : Int), []⟩
       fr :: stack') := by
  have hnl' : '\n' ∉ (List.replicate (d * isz) ' ' ++ content) := nl_not_mem_render _ hnl
  have hlen : rstripNl (List.replicate (d * isz) ' ' ++ content) =
      List.replicate (d * isz) ' ' ++ content := rstripNl_eq_self hnl'
  have hstr2 : pyLstrip (List.replicate (d * isz) ' ' ++ content) = content := by
    rw [pyLstrip_replicate_space_append, hls]
  simp only [parse_line, hlen, hstr2]
  have hemp : content.isEmpty = false := by
    cases content with
    | nil => exact absurd rfl hne
    | cons c u => rfl
  rw [if_neg (by rw [hemp]; exact Bool.false_ne_true)]
  have harith : (List.replicate (d * isz) ' ' ++ content).length - content.length = d * isz := by
    simp
  rw [harith, Nat.mul_div_cancel _ hisz]

/-- A rendered comment line `"// " + v` parses back to a comment frame. -/
theorem parse_line_comment {isz : Nat} (hisz : 0 < isz) (stack : List Frame)
    (d : Nat) (v : List Char) (hv : pyStrip v = v) (hnlv : '\n' ∉ v) :
    parse_line isz stack (List.replicate (d * isz) ' ' ++ ('/' :: '/' :: ' ' :: v)) =
      ⟨['/', '/'], v, (d : Int), []⟩ :: popAccum (d : Int) stack none := by
  have hnl : '\n' ∉ ('/' :: '/' :: ' ' :: v) := by
    intro h
    simp only [List.mem_cons] at h
    rcases h with h | h | h | h
    · exact absurd h (by decide)
    · exact absurd h (by decide)
    · exact absurd h (by decide)
    · exact hnlv h
  have hls : pyLstrip ('/' :: '/' :: ' ' :: v) = '/' :: '/' :: ' ' :: v :=
    pyLstrip_cons_of_not _ (by decide)
  rw [parse_line_render hisz stack d hnl hls (by simp)]
  simp only [startsWithSlashes_two, if_true]
  have hdrop : (('/' :: '/' :: ' ' :: v).drop 2) = ' ' :: v := rfl
  rw [hdrop, pyStrip_cons_space _ (by decide), hv]

/-- A rendered data line `t + ": " + v` (nonempty value) parses back to the
frame `(t, v)`. -/
theorem parse_line_data_val {isz : Nat} (hisz : 0 < isz) (stack : List Frame)
    (d : Nat) (t v : List Char) (ht : pyStrip t = t) (hcol : ∀ c ∈ t, c ≠ ':')
    (hss : startsWithSlashes t = false) (hv : pyStrip v = v)
    (hnlt : '\n' ∉ t) (hnlv : '\n' ∉ v) :
    parse_line isz stack (List.replicate (d * isz) ' ' ++ (t ++ ':' :: ' ' :: v)) =
      ⟨t, v, (d : Int), []⟩ :: popAccum (d : Int) stack none := by
  have hnl : '\n' ∉ (t ++ ':' :: ' ' :: v) := by
    intro h
    rcases List.mem_append.mp h with h | h
    · exact hnlt h
    · simp only [List.mem_cons] at h
      rcases h with h | h | h
      · exact absurd h (by decide)
      · exact absurd h (by decide)
      · exact hnlv h
  have hls : pyLstrip (t ++ ':' :: ' ' :: v) = t ++ ':' :: ' ' :: v := by
    cases t with
    | nil => exact pyLstrip_cons_of_not _ (by decide)
    | cons c u =>
      have := head_not_space_of_strip_fix ht
      simpa using pyLstrip_cons_of_not (u ++ ':' :: ' ' :: v) this
  rw [parse_line_render hisz stack d hnl hls (by simp)]
  have hss2 : startsWithSlashes (t ++ ':' :: ' ' :: v) = false := by
    cases t with
    | nil => rfl
    | cons a u =>
      cases u with
      | nil => simp [startsWithSlashes]
      | cons b u' => simpa [startsWithSlashes] using hss
  rw [hss2]
  simp only [Bool.false_eq_true, if_false]
  have hmem : (':') ∈ t ++ ':' :: ' ' :: v := List.mem_append.mpr (Or.inr (List.mem_cons_self _ _))
  rw [if_pos hmem]
  have hp : ∀ a ∈ t, (fun c => decide (c ≠ ':')) a = true := by
    intro a ha
    simp [hcol a ha]
  have htake : (t ++ ':' :: ' ' :: v).takeWhile (fun c => decide (c ≠ ':')) = t := by
    rw [List.takeWhile_append_of_pos hp, List.takeWhile_cons_of_neg (by simp)]
    simp
  have hdrop : (t ++ ':' :: ' ' :: v).dropWhile (fun c => decide (c ≠ ':')) = ':' :: ' ' :: v := by
    rw [List.dropWhile_append_of_pos hp, List.dropWhile_cons_of_neg (by simp)]
  rw [htake, hdrop, ht]
  have hdrop1 : (':' :: ' ' :: v).drop 1 = ' ' :: v := rfl
  rw [hdrop1, pyStrip_cons_space _ (by decide), hv]

/-- A rendered data line consisting only of the tag parses back to the
frame `(t, "")`. -/
theorem parse_line_data_noval {isz : Nat} (hisz : 0 < isz) (stack : List Frame)
    (d : Nat) (t : List Char) (htne : t ≠ []) (ht : pyStrip t = t)
    (hcol : ∀ c ∈ t, c ≠ ':') (hss : startsWithSlashes t = false) (hnlt : '\n' ∉ t) :
    parse_line isz stack (List.replicate (d * isz) ' ' ++ t) =
      ⟨t, [], (d : Int), []⟩ :: popAccum (d : Int) stack none := by
  have hls : pyLstrip t = t := pyLstrip_of_strip_fix ht
  rw [parse_line_render hisz stack d hnlt hls htne]
  rw [hss]
  simp only [Bool.false_eq_true, if_false]
  have hmem : (':') ∉ t := fun h => hcol _ h rfl
  rw [if_neg hmem, ht]

/-! ### Setup for the round-trip theorem -/

/-- Folding the parser over a list of lines. -/
def runL (isz : Nat) (ls : List (List Char)) (S : List Frame) : List Frame :=
  ls.foldl (parse_line isz) S

theorem runL_nil (isz : Nat) (S : List Frame) : runL isz [] S = S := rfl

theorem runL_cons (isz : Nat) (l : List Char) (ls : List (List Char)) (S : List Frame) :
    runL isz (l :: ls) S = runL isz ls (parse_line isz S l) := rfl

theorem runL_append (isz : Nat) (l1 l2 : List (List Char)) (S : List Frame) :
    runL isz (l1 ++ l2) S = runL isz l2 (runL isz l1 S) :=
  List.foldl_append _ _ _ _

theorem parse_text_eq (isz : Nat) (text : List Char) :
    parse_text isz text = finishAccum (runL isz (pySplitLines text) [rootFrame]) none := rfl

/-- Adding a list of already-canonicalized children to a frame. -/
def addKids (f : Frame) (cs : List OTUINode) (d : Int) : Frame :=
  { f with childrenRev := (canonL cs d).reverse ++ f.childrenRev }

theorem addKids_nil (f : Frame) (d : Int) : addKids f [] d = f := rfl

theorem addKids_fdepth (f : Frame) (cs : List OTUINode) (d : Int) :
    (addKids f cs d).fdepth = f.fdepth := rfl

theorem nsize_pos (n : OTUINode) : 1 ≤ nsize n := by
  cases n with
  | mk t v d cs => simp [nsize]

theorem lsize_cons (n : OTUINode) (cs : List OTUINode) :
    lsize (n :: cs) = nsize n + lsize cs := rfl

theorem botInv_parse_line {S : List Frame} (isz : Nat) (raw : List Char)
    (h : BotInv S) : BotInv (parse_line isz S raw) := by
  by_cases hb : (pyLstrip (rstripNl raw)).isEmpty
  · simp only [parse_line, hb, if_true]
    exact h
  · simp only [parse_line, hb, if_false]
    refine botInv_cons _ (botInv_popAccum none ?_ h)
    have : (0 : Int) ≤ (((rstripNl raw).length - (pyLstrip (rstripNl raw)).length) / isz : Nat) :=
      Int.natCast_nonneg _
    omega

theorem botInv_runL (isz : Nat) :
    ∀ (ls : List (List Char)) (S : List Frame), BotInv S → BotInv (runL isz ls S) := by
  intro ls
  induction ls with
  | nil => intro S h; exact h
  | cons l ls ih =>
    intro S h
    rw [runL_cons]
    exact ih _ (botInv_parse_line isz l h)

theorem parsedInvN_props {t v : List Char} {dep : Int} {cs : List OTUINode}
    (h : parsedInvN (.mk t v dep cs) = true) :
    pyStrip t = t ∧ pyStrip v = v ∧ (∀ c ∈ t, c ≠ ':') ∧
      (∀ c ∈ t, isLineBreakC c = false) ∧ (∀ c ∈ v, isLineBreakC c = false) ∧
      (startsWithSlashes t = true → t = ['/', '/']) ∧ parsedInvL cs = true := by
  simp only [parsedInvN, Bool.and_eq_true, beq_iff_eq, List.all_eq_true,
    Bool.not_eq_true', Bool.or_eq_true] at h
  refine ⟨h.1.1.1.1.1.1, h.1.1.1.1.1.2, ?_, ?_, ?_, ?_, h.2⟩
  · intro c hc
    have := h.1.1.1.1.2 c hc
    intro heq
    rw [heq] at this
    simp at this
  · intro c hc
    exact h.1.1.1.2 c hc
  · intro c hc
    exact h.1.1.2 c hc
  · intro hsw
    rcases h.1.2 with h' | h'
    · rw [hsw] at h'; simp at h'
    · exact h'

theorem serializableN_props {t v : List Char} {dep : Int} {cs : List OTUINode}
    (h : serializableN (.mk t v dep cs) = true) :
    t ≠ toL "Root" ∧ ¬(t = [] ∧ v = []) ∧ (t = ['/', '/'] → cs = []) ∧
      serializableL cs = true := by
  simp only [serializableN, Bool.and_eq_true, bne_iff_ne, Bool.or_eq_true] at h
  refine ⟨h.1.1.1, ?_, ?_, h.2⟩
  · rintro ⟨ht, hv⟩
    have := h.1.1.2
    rw [ht, hv] at this
    simp at this
  · intro hteq
    rcases h.1.2 with h' | h'
    · rw [hteq] at h'; simp at h'
    · rw [List.isEmpty_iff] at h'
      exact h'

theorem parsedInvL_cons {n : OTUINode} {cs : List OTUINode}
    (h : parsedInvL (n :: cs) = true) : parsedInvN n = true ∧ parsedInvL cs = true := by
  simpa [parsedInvL, Bool.and_eq_true] using h

theorem serializableL_cons {n : OTUINode} {cs : List OTUINode}
    (h : serializableL (n :: cs) = true) : serializableN n = true ∧ serializableL cs = true := by
  simpa [serializableL, Bool.and_eq_true] using h

theorem nl_not_mem_of_breaks {t : List Char} (h : ∀ c ∈ t, isLineBreakC c = false) :
    '\n' ∉ t := by
  intro hm
  exact absurd (h _ hm) (by decide)

/-- Base case of the machine simulation: an empty sibling list leaves the
stack unchanged, and popping or finishing commutes as required. -/
theorem phi_nil {isz : Nat} (d : Nat) (S : List Frame) (f : Frame) (rest : List Frame)
    (hS : popAccum (d : Int) S none = f :: rest) (hBot : BotInv S) :
    (∀ e : Int, e ≤ (d : Int) →
      popAccum e (runL isz (writeAll isz [] d) S) none =
        popAccum e (addKids f [] (d : Int) :: rest) none) ∧
    finishAccum (runL isz (writeAll isz [] d) S) none =
      finishAccum (addKids f [] (d : Int) :: rest) none := by
  have hw : writeAll isz ([] : List OTUINode) d = [] := rfl
  rw [hw, runL_nil, addKids_nil]
  constructor
  · intro e he
    rw [← popAccum_popAccum he S none, hS]
  · obtain ⟨S₀, fr, hSeq, hfd, _, _⟩ := hBot
    have hlt : fr.fdepth < (d : Int) := by
      have : (0 : Int) ≤ (d : Int) := Int.natCast_nonneg d
      omega
    have hfin := finish_popAccum S₀ fr none (d : Int) hlt
    rw [hSeq] at hS ⊢
    rw [← hfin, hS]

/-- The machine simulation behind the round-trip law: running the parser
over the rendered lines of a good sibling list `cs` at render depth `d`,
starting from any stack that pops to `f :: rest` at threshold `d`, yields
(as far as later pops and the final collapse can observe) the stack
`addKids f cs d :: rest` — i.e. exactly the canonicalized nodes of `cs`
attached as children of `f`. -/
theorem phi {isz : Nat} (hisz : 0 < isz) :
    ∀ (k : Nat) (cs : List OTUINode), lsize cs ≤ k →
      parsedInvL cs = true → serializableL cs = true →
      ∀ (d : Nat) (S : List Frame) (f : Frame) (rest : List Frame),
        popAccum (d : Int) S none = f :: rest → BotInv S →
        (∀ e : Int, e ≤ (d : Int) →
          popAccum e (runL isz (writeAll isz cs d) S) none =
            popAccum e (addKids f cs (d : Int) :: rest) none) ∧
        finishAccum (runL isz (writeAll isz cs d) S) none =
          finishAccum (addKids f cs (d : Int) :: rest) none := by
  intro k
  induction k with
  | zero =>
    intro cs hsz hInv hSer d S f rest hS hBot
    cases cs with
    | nil => exact phi_nil d S f rest hS hBot
    | cons n cs' =>
      exfalso
      have := nsize_pos n
      rw [lsize_cons] at hsz
      omega
  | succ k ih =>
    intro cs hsz hInv hSer d S f rest hS hBot
    cases cs with
    | nil => exact phi_nil d S f rest hS hBot
    | cons n cs' =>
      obtain ⟨hInvN, hInvL⟩ := parsedInvL_cons hInv
      obtain ⟨hSerN, hSerL⟩ := serializableL_cons hSer
      cases n with
      | mk t v dep ncs =>
        obtain ⟨ht, hv, hcol, hbrt, hbrv, hsw, hInvC⟩ := parsedInvN_props hInvN
        obtain ⟨hroot, hnotEmpty, hcomChild, hSerC⟩ := serializableN_props hSerN
        have hfd : f.fdepth < (d : Int) := popAccum_head_lt S none f rest hS
        have hBotFR : BotInv (f :: rest) := by
          rw [← hS]
          refine botInv_popAccum none ?_ hBot
          have : (0 : Int) ≤ (d : Int) := Int.natCast_nonneg d
          omega
        have hns : nsize (.mk t v dep ncs) = 1 + lsize ncs := rfl
        have hsz' : lsize cs' ≤ k := by
          rw [lsize_cons, hns] at hsz
          omega
        have hszC : lsize ncs ≤ k := by
          rw [lsize_cons, hns] at hsz
          omega
        have hcast : ((d + 1 : Nat) : Int) = (d : Int) + 1 := by omega
        have hlineAll : ∃ rline,
            (write isz (.mk t v dep ncs) d = rline :: writeAll isz ncs (d + 1)) ∧
            (parse_line isz S rline = (⟨t, v, (d : Int), []⟩ : Frame) :: (f :: rest)) := by
          by_cases hcom : t = ['/', '/']
          · have hncs := hcomChild hcom
            subst hncs
            subst hcom
            refine ⟨List.replicate (d * isz) ' ' ++ ('/' :: '/' :: ' ' :: v), ?_, ?_⟩
            · have h1 : ¬ (['/', '/'] : List Char) = toL "Root" := by decide
              simp [write, writeAll, h1, List.append_assoc]
            · rw [parse_line_comment hisz S d v hv (nl_not_mem_of_breaks hbrv), hS]
          · have hss : startsWithSlashes t = false := by
              cases hsw2 : startsWithSlashes t
              · rfl
              · exact absurd (hsw hsw2) hcom
            by_cases hvemp : v = []
            · subst hvemp
              have htne : t ≠ [] := fun h => hnotEmpty ⟨h, rfl⟩
              refine ⟨List.replicate (d * isz) ' ' ++ t, ?_, ?_⟩
              · simp [write, hroot, hcom]
              · rw [parse_line_data_noval hisz S d t htne ht hcol hss
                  (nl_not_mem_of_breaks hbrt), hS]
            · refine ⟨List.replicate (d * isz) ' ' ++ (t ++ ':' :: ' ' :: v), ?_, ?_⟩
              · simp [write, hroot, hcom, hvemp, List.append_assoc]
              · rw [parse_line_data_val hisz S d t v ht hcol hss hv
                  (nl_not_mem_of_breaks hbrt) (nl_not_mem_of_breaks hbrv), hS]
        obtain ⟨rline, hw, hpl⟩ := hlineAll
        have hsplit : writeAll isz (OTUINode.mk t v dep ncs :: cs') d =
            write isz (.mk t v dep ncs) d ++ writeAll isz cs' d := rfl
        rw [hsplit, hw, runL_append, runL_cons, hpl]
        have hchild := ih ncs hszC hInvC hSerC (d + 1)
          ((⟨t, v, (d : Int), []⟩ : Frame) :: f :: rest) ⟨t, v, (d : Int), []⟩ (f :: rest)
          (popAccum_noop _ (by show (d : Int) < ((d + 1 : Nat) : Int); omega))
          (botInv_cons _ hBotFR)
        obtain ⟨hcD1, hcD2⟩ := hchild
        have hS₂ : popAccum (d : Int)
            (runL isz (writeAll isz ncs (d + 1)) ((⟨t, v, (d : Int), []⟩ : Frame) :: f :: rest)) none =
            ({ f with childrenRev := canonN (.mk t v dep ncs) (d : Int) :: f.childrenRev } : Frame) :: rest := by
          rw [hcD1 (d : Int) (by show (d : Int) ≤ ((d + 1 : Nat) : Int); omega)]
          rw [popAccum_unfold, mergePend_none,
            if_pos (show (d : Int) ≤
              (addKids ⟨t, v, (d : Int), []⟩ ncs ((d + 1 : Nat) : Int)).fdepth from le_refl _)]
          rw [popAccum_unfold, if_neg (not_le.mpr hfd)]
          have hnode : (addKids ⟨t, v, (d : Int), []⟩ ncs ((d + 1 : Nat) : Int)).toNode =
              canonN (.mk t v dep ncs) (d : Int) := by
            simp [addKids, Frame.toNode, canonN, hcast]
          rw [hnode]
          rfl
        have hBot₂ : BotInv
            (runL isz (writeAll isz ncs (d + 1)) ((⟨t, v, (d : Int), []⟩ : Frame) :: f :: rest)) :=
          botInv_runL isz _ _ (botInv_cons _ hBotFR)
        have hmain := ih cs' hsz' hInvL hSerL d _ _ rest hS₂ hBot₂
        have haddEq : addKids
            ({ f with childrenRev := canonN (.mk t v dep ncs) (d : Int) :: f.childrenRev } : Frame)
            cs' (d : Int) = addKids f (OTUINode.mk t v dep ncs :: cs') (d : Int) := by
          simp [addKids, canonL, List.append_assoc]
        rw [haddEq] at hmain
        exact hmain

/-! ### Splitting the serializer's output back into its lines -/

theorem pySLA_nonbreak {c : Char} (hc : isLineBreakC c = false)
    (rest acc : List Char) :
    pySplitLinesAcc (c :: rest) acc = pySplitLinesAcc rest (c :: acc) := by
  cases rest with
  | nil => simp [pySplitLinesAcc, hc]
  | cons c2 rest' =>
    have hr : c ≠ '\r' := by
      intro h
      rw [h] at hc
      exact absurd hc (by decide)
    simp [pySplitLinesAcc, hc, hr]

theorem pySLA_newline (rest acc : List Char) :
    pySplitLinesAcc ('\n' :: rest) acc = acc.reverse :: pySplitLinesAcc rest [] := by
  cases rest with
  | nil => simp [pySplitLinesAcc, (by decide : isLineBreakC '\n' = true)]
  | cons c2 rest' =>
    simp [pySplitLinesAcc, (by decide : isLineBreakC '\n' = true),
      (by decide : ('\n' : Char) ≠ '\r')]

theorem pySLA_chunk :
    ∀ (l : List Char), (∀ c ∈ l, isLineBreakC c = false) →
      ∀ (s acc : List Char),
        pySplitLinesAcc (l ++ s) acc = pySplitLinesAcc s (l.reverse ++ acc) := by
  intro l
  induction l with
  | nil => intro _ s acc; simp
  | cons c u ih =>
    intro hbf s acc
    rw [List.cons_append, pySLA_nonbreak (hbf c (List.mem_cons_self _ _)),
      ih (fun x hx => hbf x (List.mem_cons_of_mem _ hx)) s (c :: acc)]
    simp

/-- Joining break-free lines with newlines (plus the final newline) and
splitting again recovers exactly the lines. -/
theorem pySplitLines_unjoin :
    ∀ (ls : List (List Char)), (∀ l ∈ ls, ∀ c ∈ l, isLineBreakC c = false) →
      pySplitLines (joinLines ls ++ (if ls.isEmpty then [] else ['\n'])) = ls := by
  intro ls
  induction ls with
  | nil => intro _; rfl
  | cons l ls' ih =>
    intro hbf
    cases ls' with
    | nil =>
      show pySplitLines (joinLines [l] ++ ['\n']) = [l]
      have hj : joinLines [l] = l := rfl
      rw [hj, pySplitLines, pySLA_chunk l (hbf l (List.mem_cons_self _ _)) _ [],
        pySLA_newline]
      simp [pySplitLinesAcc]
    | cons l2 ls'' =>
      show pySplitLines (joinLines (l :: l2 :: ls'') ++ ['\n']) = l :: l2 :: ls''
      have hj : joinLines (l :: l2 :: ls'') = l ++ '\n' :: joinLines (l2 :: ls'') := rfl
      rw [hj, pySplitLines, List.append_assoc, List.cons_append,
        pySLA_chunk l (hbf l (List.mem_cons_self _ _)) _ [], pySLA_newline]
      have ih' := ih (fun x hx => hbf x (List.mem_cons_of_mem _ hx))
      rw [show (if (l2 :: ls'').isEmpty then ([] : List Char) else ['\n']) = ['\n'] from rfl]
        at ih'
      rw [pySplitLines] at ih'
      rw [ih']
      simp

/-! ### Canonicalization preserves the depth-blind tree structure -/

theorem ltreeEq_canonL_aux :
    ∀ (k : Nat) (cs : List OTUINode), lsize cs ≤ k → ∀ d : Int,
      ltreeEq (canonL cs d) cs = true := by
  intro k
  induction k with
  | zero =>
    intro cs hsz d
    cases cs with
    | nil => rfl
    | cons n cs' =>
      exfalso
      have := nsize_pos n
      rw [lsize_cons] at hsz
      omega
  | succ k ih =>
    intro cs hsz d
    cases cs with
    | nil => rfl
    | cons n cs' =>
      cases n with
      | mk t v dep ncs =>
        have hns : nsize (.mk t v dep ncs) = 1 + lsize ncs := rfl
        rw [lsize_cons, hns] at hsz
        simp only [canonL, canonN, ltreeEq, treeEq, Bool.and_eq_true,
          beq_self_eq_true, true_and]
        exact ⟨ih ncs (by omega) _, ih cs' (by omega) _⟩

theorem ltreeEq_canonL (cs : List OTUINode) (d : Int) :
    ltreeEq (canonL cs d) cs = true :=
  ltreeEq_canonL_aux (lsize cs) cs (le_refl _) d

/-! ### The serializer's lines are break-free and nonempty -/

theorem writeAll_breakfree {isz : Nat} :
    ∀ (k : Nat) (cs : List OTUINode), lsize cs ≤ k → parsedInvL cs = true →
      ∀ (d : Nat), ∀ l ∈ writeAll isz cs d, ∀ c ∈ l, isLineBreakC c = false := by
  intro k
  induction k with
  | zero =>
    intro cs hsz _ d l hl
    cases cs with
    | nil => simp [writeAll] at hl
    | cons n cs' =>
      exfalso
      have := nsize_pos n
      rw [lsize_cons] at hsz
      omega
  | succ k ih =>
    intro cs hsz hInv d l hl
    cases cs with
    | nil => simp [writeAll] at hl
    | cons n cs' =>
      obtain ⟨hInvN, hInvL⟩ := parsedInvL_cons hInv
      cases n with
      | mk t v dep ncs =>
        obtain ⟨ht, hv, hcol, hbrt, hbrv, hsw, hInvC⟩ := parsedInvN_props hInvN
        have hns : nsize (.mk t v dep ncs) = 1 + lsize ncs := rfl
        rw [lsize_cons, hns] at hsz
        have hsplit : writeAll isz (OTUINode.mk t v dep ncs :: cs') d =
            write isz (.mk t v dep ncs) d ++ writeAll isz cs' d := rfl
        rw [hsplit] at hl
        rcases List.mem_append.mp hl with hmem | hmem
        · -- line of the first node
          have hsp : isLineBreakC ' ' = false := by decide
          have hrep : ∀ c ∈ List.replicate (d * isz) ' ', isLineBreakC c = false := by
            intro c hc
            rw [List.eq_of_mem_replicate hc]
            exact hsp
          simp only [write] at hmem
          by_cases hr : t = toL "Root"
          · rw [if_pos hr] at hmem
            exact ih ncs (by omega) hInvC 0 l hmem
          · rw [if_neg hr] at hmem
            by_cases hcm : t = ['/', '/']
            · rw [if_pos hcm] at hmem
              simp only [List.mem_singleton] at hmem
              subst hmem
              intro c hc
              rcases List.mem_append.mp hc with h1 | h1
              · rcases List.mem_append.mp h1 with h2 | h2
                · exact hrep c h2
                · simp only [List.mem_cons] at h2
                  rcases h2 with h | h | h | h
                  · subst h; decide
                  · subst h; decide
                  · subst h; decide
                  · simp at h
              · exact hbrv c h1
            · rw [if_neg hcm] at hmem
              by_cases hve : v.isEmpty
              · rw [if_pos hve] at hmem
                rcases List.mem_cons.mp hmem with h1 | h1
                · subst h1
                  intro c hc
                  rcases List.mem_append.mp hc with h2 | h2
                  · exact hrep c h2
                  · exact hbrt c h2
                · exact ih ncs (by omega) hInvC (d + 1) l h1
              · rw [if_neg hve] at hmem
                rcases List.mem_cons.mp hmem with h1 | h1
                · subst h1
                  intro c hc
                  rcases List.mem_append.mp hc with h2 | h2
                  · rcases List.mem_append.mp h2 with h3 | h3
                    · rcases List.mem_append.mp h3 with h4 | h4
                      · exact hrep c h4
                      · exact hbrt c h4
                    · simp only [List.mem_cons] at h3
                      rcases h3 with h | h | h
                      · subst h; decide
                      · subst h; decide
                      · simp at h
                  · exact hbrv c h2
                · exact ih ncs (by omega) hInvC (d + 1) l h1
        · exact ih cs' (by omega) hInvL d l hmem

theorem write_ne_nil {isz : Nat} {t v : List Char} {dep : Int} {ncs : List OTUINode}
    (hroot : t ≠ toL "Root") (d : Nat) :
    write isz (.mk t v dep ncs) d ≠ [] := by
  simp only [write, if_neg hroot]
  by_cases hcm : t = ['/', '/']
  · rw [if_pos hcm]; simp
  · rw [if_neg hcm]
    by_cases hve : v.isEmpty
    · rw [if_pos hve]; simp
    · rw [if_neg hve]; simp

/-! ### The structural invariant of every tree `parse_text` returns -/

theorem parsedInvN_intro {t v : List Char} {dep : Int} {cs : List OTUINode}
    (h1 : pyStrip t = t) (h2 : pyStrip v = v) (h3 : ∀ c ∈ t, c ≠ ':')
    (h4 : ∀ c ∈ t, isLineBreakC c = false) (h5 : ∀ c ∈ v, isLineBreakC c = false)
    (h6 : startsWithSlashes t = true → t = ['/', '/']) (h7 : parsedInvL cs = true) :
    parsedInvN (.mk t v dep cs) = true := by
  simp only [parsedInvN, Bool.and_eq_true, beq_iff_eq, List.all_eq_true,
    Bool.not_eq_true', Bool.or_eq_true]
  refine ⟨⟨⟨⟨⟨⟨h1, h2⟩, ?_⟩, h4⟩, h5⟩, ?_⟩, h7⟩
  · intro c hc
    simpa using h3 c hc
  · cases hsw : startsWithSlashes t
    · left; rfl
    · right
      rw [h6 hsw]

theorem parsedInvL_forall :
    ∀ (cs : List OTUINode), parsedInvL cs = true ↔ ∀ n ∈ cs, parsedInvN n = true := by
  intro cs
  induction cs with
  | nil => simp [parsedInvL]
  | cons n cs ih => simp [parsedInvL, Bool.and_eq_true, ih, List.forall_mem_cons]

/-- Invariant carried by each open frame on the stack. -/
def frameInv (f : Frame) : Prop :=
  parsedInvN (.mk f.ftag f.fvalue 0 f.childrenRev) = true

theorem frameInv_toNode {f : Frame} (h : frameInv f) : parsedInvN f.toNode = true := by
  obtain ⟨h1, h2, h3, h4, h5, h6, h7⟩ := parsedInvN_props h
  apply parsedInvN_intro h1 h2 h3 h4 h5 h6
  rw [parsedInvL_forall] at h7 ⊢
  intro n hn
  exact h7 n (List.mem_reverse.mp hn)

theorem mergePend_frameInv {f : Frame} (h : frameInv f) (pend : Option OTUINode)
    (hp : ∀ n, pend = some n → parsedInvN n = true) : frameInv (mergePend f pend) := by
  cases pend with
  | none => exact h
  | some n =>
    obtain ⟨h1, h2, h3, h4, h5, h6, h7⟩ := parsedInvN_props h
    show parsedInvN (.mk f.ftag f.fvalue 0 (n :: f.childrenRev)) = true
    apply parsedInvN_intro h1 h2 h3 h4 h5 h6
    rw [parsedInvL_forall] at h7 ⊢
    intro m hm
    rcases List.mem_cons.mp hm with hm | hm
    · rw [hm]; exact hp n rfl
    · exact h7 m hm

theorem popAccum_frameInv :
    ∀ (S : List Frame) (pend : Option OTUINode) (d : Int),
      (∀ f ∈ S, frameInv f) → (∀ n, pend = some n → parsedInvN n = true) →
      ∀ f ∈ popAccum d S pend, frameInv f := by
  intro S
  induction S with
  | nil => intro pend d _ _ f hf; simp [popAccum_nil] at hf
  | cons g rest ih =>
    intro pend d hS hp f hf
    have hg' : frameInv (mergePend g pend) :=
      mergePend_frameInv (hS g (List.mem_cons_self _ _)) pend hp
    rw [popAccum_unfold] at hf
    by_cases hd : d ≤ g.fdepth
    · rw [if_pos hd] at hf
      refine ih _ _ (fun x hx => hS x (List.mem_cons_of_mem _ hx)) ?_ f hf
      intro n hn
      injection hn with hn'
      rw [← hn']
      exact frameInv_toNode hg'
    · rw [if_neg hd] at hf
      rcases List.mem_cons.mp hf with h | h
      · subst h; exact hg'
      · exact hS f (List.mem_cons_of_mem _ h)

theorem mem_of_mem_rstripNl {c : Char} {s : List Char} (h : c ∈ rstripNl s) : c ∈ s := by
  simp only [rstripNl, List.mem_reverse] at h
  have := (List.dropWhile_sublist (l := s.reverse) (· = '\n')).mem h
  simpa using this

theorem startsWithSlashes_mono {x z : List Char} (h : startsWithSlashes x = true) :
    startsWithSlashes (x ++ z) = true := by
  cases x with
  | nil => simp [startsWithSlashes] at h
  | cons a u =>
    cases u with
    | nil => simp [startsWithSlashes] at h
    | cons b u' =>
      simpa [startsWithSlashes] using h

/-- The tag produced for a data line never starts with `//`: it is obtained
by stripping an initial segment of the stripped line, which itself does not
start with `//`. -/
theorem tag_no_slashes {stripped w : List Char}
    (hfix : pyLstrip stripped = stripped)
    (hss : startsWithSlashes stripped = false)
    (hpre : ∃ r, w ++ r = stripped) :
    startsWithSlashes (pyStrip w) = false := by
  cases w with
  | nil => rfl
  | cons a u =>
    obtain ⟨r, hr⟩ := hpre
    have hr' : stripped = a :: (u ++ r) := by rw [← hr]; rfl
    have ha : isPySpace a = false := by
      apply head_not_space_of_lstrip_fix
      rw [← hr']
      exact hfix
    have hlw : pyLstrip (a :: u) = a :: u := pyLstrip_cons_of_not _ ha
    have hsw : pyStrip (a :: u) = pyRstrip (a :: u) := by rw [pyStrip, hlw]
    rw [hsw]
    obtain ⟨q, hq⟩ := pyRstrip_append_exists (a :: u)
    cases hswr : startsWithSlashes (pyRstrip (a :: u))
    · rfl
    · exfalso
      have h1 := startsWithSlashes_mono (z := q ++ r) hswr
      have h2 : pyRstrip (a :: u) ++ (q ++ r) = stripped := by
        rw [← List.append_assoc, hq, hr]
      rw [h2, hss] at h1
      exact absurd h1 (by decide)

/-- The new frame pushed by `parse_line` for any break-free raw line
satisfies the frame invariant, and the whole stack stays invariant. -/
theorem parse_line_frameInv {isz : Nat} {S : List Frame} {raw : List Char}
    (hbf : ∀ c ∈ raw, isLineBreakC c = false)
    (hS : ∀ f ∈ S, frameInv f) : ∀ f ∈ parse_line isz S raw, frameInv f := by
  by_cases hb : (pyLstrip (rstripNl raw)).isEmpty
  · simp only [parse_line, hb, if_true]
    exact hS
  · simp only [parse_line, hb, if_false]
    intro f hf
    have hmemS : ∀ c ∈ pyLstrip (rstripNl raw), isLineBreakC c = false := by
      intro c hc
      exact hbf c (mem_of_mem_rstripNl (mem_of_mem_pyLstrip hc))
    have hfixS : pyLstrip (pyLstrip (rstripNl raw)) = pyLstrip (rstripNl raw) :=
      pyLstrip_idem _
    rcases List.mem_cons.mp hf with h | h
    · subst h
      by_cases hsw : startsWithSlashes (pyLstrip (rstripNl raw))
      · rw [if_pos hsw]
        show parsedInvN (.mk ['/', '/'] (pyStrip ((pyLstrip (rstripNl raw)).drop 2)) 0 []) = true
        refine parsedInvN_intro (by decide) (pyStrip_idem _) (by decide) (by decide) ?_
          (fun _ => rfl) rfl
        intro c hc
        exact hmemS c (List.mem_of_mem_drop (mem_of_mem_pyStrip hc))
      · rw [if_neg hsw]
        have hswb : startsWithSlashes (pyLstrip (rstripNl raw)) = false := by
          cases h' : startsWithSlashes (pyLstrip (rstripNl raw))
          · rfl
          · exact absurd h' hsw
        by_cases hcl : (':') ∈ pyLstrip (rstripNl raw)
        · rw [if_pos hcl]
          show parsedInvN (.mk
            (pyStrip ((pyLstrip (rstripNl raw)).takeWhile (· ≠ ':')))
            (pyStrip (((pyLstrip (rstripNl raw)).dropWhile (· ≠ ':')).drop 1)) 0 []) = true
          refine parsedInvN_intro (pyStrip_idem _) (pyStrip_idem _) ?_ ?_ ?_ ?_ rfl
          · intro c hc
            have := List.mem_takeWhile_imp (mem_of_mem_pyStrip hc)
            simpa using this
          · intro c hc
            exact hmemS c ((List.takeWhile_sublist _).mem (mem_of_mem_pyStrip hc))
          · intro c hc
            exact hmemS c ((List.dropWhile_sublist _).mem
              (List.mem_of_mem_drop (mem_of_mem_pyStrip hc)))
          · intro hsw2
            have := tag_no_slashes hfixS hswb
              ⟨(pyLstrip (rstripNl raw)).dropWhile (· ≠ ':'),
                List.takeWhile_append_dropWhile _ _⟩
            rw [hsw2] at this
            exact absurd this (by decide)
        · rw [if_neg hcl]
          show parsedInvN (.mk (pyStrip (pyLstrip (rstripNl raw))) [] 0 []) = true
          refine parsedInvN_intro (pyStrip_idem _) rfl ?_ ?_ (by simp) ?_ rfl
          · intro c hc
            intro hceq
            subst hceq
            exact hcl (mem_of_mem_pyStrip hc)
          · intro c hc
            exact hmemS c (mem_of_mem_pyStrip hc)
          · intro hsw2
            have := tag_no_slashes hfixS hswb ⟨[], List.append_nil _⟩
            rw [hsw2] at this
            exact absurd this (by decide)
    · exact popAccum_frameInv S none _ hS (fun n hn => by simp at hn) f h

theorem runL_frameInv {isz : Nat} :
    ∀ (ls : List (List Char)) (S : List Frame),
      (∀ l ∈ ls, ∀ c ∈ l, isLineBreakC c = false) →
      (∀ f ∈ S, frameInv f) → ∀ f ∈ runL isz ls S, frameInv f := by
  intro ls
  induction ls with
  | nil => intro S _ hS; exact hS
  | cons l ls ih =>
    intro S hbf hS
    rw [runL_cons]
    exact ih _ (fun x hx => hbf x (List.mem_cons_of_mem _ hx))
      (parse_line_frameInv (hbf l (List.mem_cons_self _ _)) hS)

theorem pySplitLinesAcc_breakfree :
    ∀ (k : Nat) (s acc : List Char), s.length ≤ k →
      (∀ c ∈ acc, isLineBreakC c = false) →
      ∀ l ∈ pySplitLinesAcc s acc, ∀ c ∈ l, isLineBreakC c = false := by
  intro k
  induction k with
  | zero =>
    intro s acc hk hacc l hl
    cases s with
    | nil =>
      simp only [pySplitLinesAcc] at hl
      by_cases he : acc.isEmpty
      · rw [if_pos he] at hl; simp at hl
      · rw [if_neg he] at hl
        simp only [List.mem_singleton] at hl
        subst hl
        intro c hc
        exact hacc c (List.mem_reverse.mp hc)
    | cons c s' => simp at hk
  | succ k ih =>
    intro s acc hk hacc l hl
    have hrev : ∀ (ac : List Char), (∀ c ∈ ac, isLineBreakC c = false) →
        ∀ c ∈ ac.reverse, isLineBreakC c = false := by
      intro ac hac c hc
      exact hac c (List.mem_reverse.mp hc)
    cases s with
    | nil => exact ih [] acc (by simp) hacc l hl
    | cons c s' =>
      cases s' with
      | nil =>
        simp only [pySplitLinesAcc] at hl
        by_cases hc : isLineBreakC c
        · rw [if_pos hc] at hl
          rcases List.mem_cons.mp hl with h | h
          · subst h
            exact hrev acc hacc
          · exact ih [] [] (by simp) (by simp) l h
        · rw [if_neg hc] at hl
          refine ih [] (c :: acc) (by simp) ?_ l hl
          intro x hx
          rcases List.mem_cons.mp hx with h | h
          · subst h
            cases h2 : isLineBreakC x
            · rfl
            · exact absurd h2 hc
          · exact hacc x h
      | cons c2 s'' =>
        simp only [pySplitLinesAcc] at hl
        simp only [List.length_cons] at hk
        by_cases hcc : (c = '\r' && c2 = '\n') = true
        · rw [if_pos hcc] at hl
          rcases List.mem_cons.mp hl with h | h
          · subst h
            exact hrev acc hacc
          · exact ih s'' [] (by omega) (by simp) l h
        · rw [if_neg hcc] at hl
          by_cases hc : isLineBreakC c
          · rw [if_pos hc] at hl
            rcases List.mem_cons.mp hl with h | h
            · subst h
              exact hrev acc hacc
            · exact ih (c2 :: s'') [] (by simp; omega) (by simp) l h
          · rw [if_neg hc] at hl
            refine ih (c2 :: s'') (c :: acc) (by simp; omega) ?_ l hl
            intro x hx
            rcases List.mem_cons.mp hx with h | h
            · subst h
              cases h2 : isLineBreakC x
              · rfl
              · exact absurd h2 hc
            · exact hacc x h

theorem pySplitLines_breakfree (text : List Char) :
    ∀ l ∈ pySplitLines text, ∀ c ∈ l, isLineBreakC c = false :=
  pySplitLinesAcc_breakfree text.length text [] (le_refl _) (by simp)

theorem finishAccum_inv :
    ∀ (S : List Frame) (pend : Option OTUINode),
      (∀ f ∈ S, frameInv f) → (∀ n, pend = some n → parsedInvN n = true) →
      parsedInvN (finishAccum S pend) = true := by
  intro S
  induction S with
  | nil =>
    intro pend hS hp
    cases pend with
    | none => decide
    | some n => exact hp n rfl
  | cons f rest ih =>
    intro pend hS hp
    rw [finishAccum_unfold]
    refine ih _ (fun x hx => hS x (List.mem_cons_of_mem _ hx)) ?_
    intro n hn
    injection hn with hn'
    rw [← hn']
    exact frameInv_toNode
      (mergePend_frameInv (hS f (List.mem_cons_self _ _)) pend hp)

theorem rootFrame_frameInv : frameInv rootFrame := by
  show parsedInvN (.mk (toL "Root") [] 0 []) = true
  decide

/-- Every tree returned by `parse_text` satisfies the parse invariant:
stripped tags and values, colon-free tags, no line breaks, and comment
tags exactly `//`. -/
theorem parse_invariant (isz : Nat) (text : List Char) :
    parsedInvN (parse_text isz text) = true := by
  rw [parse_text_eq]
  apply finishAccum_inv
  · apply runL_frameInv _ _ (pySplitLines_breakfree text)
    intro f hf
    rcases List.mem_singleton.mp hf with h
    subst h
    exact rootFrame_frameInv
  · intro n hn
    simp at hn

theorem finish_bot :
    ∀ (S₀ : List Frame) (fr : Frame) (pend : Option OTUINode),
      ∃ kids, finishAccum (S₀ ++ [fr]) pend = .mk fr.ftag fr.fvalue fr.fdepth kids := by
  intro S₀
  induction S₀ with
  | nil =>
    intro fr pend
    refine ⟨(mergePend fr pend).childrenRev.reverse, ?_⟩
    rw [List.nil_append, finishAccum_unfold]
    show (mergePend fr pend).toNode = _
    rw [Frame.toNode, mergePend_ftag, mergePend_fvalue, mergePend_fdepth]
  | cons g S₀' ih =>
    intro fr pend
    rw [List.cons_append, finishAccum_unfold]
    exact ih fr _

/-- `parse_text` always returns a node tagged `Root` with empty value and
depth `-1`. -/
theorem parse_shape (isz : Nat) (text : List Char) :
    ∃ cs, parse_text isz text = .mk (toL "Root") [] (-1) cs := by
  rw [parse_text_eq]
  have hBot : BotInv (runL isz (pySplitLines text) [rootFrame]) :=
    botInv_runL isz _ _ ⟨[], rootFrame, rfl, rfl, rfl, rfl⟩
  obtain ⟨S₀, fr, hS, hd, htg, hvl⟩ := hBot
  rw [hS]
  obtain ⟨kids, hk⟩ := finish_bot S₀ fr none
  rw [hk, htg, hvl, hd]
  exact ⟨kids, rfl⟩

/-! ### The round-trip law -/

/-- Reparsing the serialization of a parsed-shape root yields the same tree
with canonical depths. -/
theorem round_trip_root {isz : Nat} (hisz : 0 < isz) (rv : List Char) (rd : Int)
    (cs : List OTUINode) (hInv : parsedInvL cs = true) (hSer : serializableL cs = true) :
    parse_text isz (to_string isz (.mk (toL "Root") rv rd cs)) =
      .mk (toL "Root") [] (-1) (canonL cs 0) := by
  have hw : write isz (.mk (toL "Root") rv rd cs) 0 = writeAll isz cs 0 := by
    simp [write]
  cases cs with
  | nil =>
    have hts : to_string isz (.mk (toL "Root") rv rd []) = [] := by
      simp [to_string, hw, writeAll, joinLines]
    rw [hts]
    rfl
  | cons n cs' =>
    obtain ⟨hSerN, hSerL⟩ := serializableL_cons hSer
    have hroot : n.tag ≠ toL "Root" := by
      cases n with
      | mk t v dep ncs => exact (serializableN_props hSerN).1
    have hne : writeAll isz (n :: cs') 0 ≠ [] := by
      cases n with
      | mk t v dep ncs =>
        have hsplit : writeAll isz (OTUINode.mk t v dep ncs :: cs') 0 =
            write isz (.mk t v dep ncs) 0 ++ writeAll isz cs' 0 := rfl
        rw [hsplit]
        intro h
        rcases List.append_eq_nil.mp h with ⟨h1, _⟩
        exact write_ne_nil hroot 0 h1
    have hemp : (writeAll isz (n :: cs') 0).isEmpty = false := by
      cases hout : writeAll isz (n :: cs') 0 with
      | nil => exact absurd hout hne
      | cons a b => rfl
    have hts : to_string isz (.mk (toL "Root") rv rd (n :: cs')) =
        joinLines (writeAll isz (n :: cs') 0) ++ ['\n'] := by
      simp only [to_string, hw, hemp]
      rfl
    have hbf : ∀ l ∈ writeAll isz (n :: cs') 0, ∀ c ∈ l, isLineBreakC c = false :=
      writeAll_breakfree (lsize (n :: cs')) (n :: cs') (le_refl _) hInv 0
    have hsplit2 : pySplitLines (joinLines (writeAll isz (n :: cs') 0) ++ ['\n']) =
        writeAll isz (n :: cs') 0 := by
      have := pySplitLines_unjoin (writeAll isz (n :: cs') 0) hbf
      rw [hemp] at this
      simpa using this
    rw [hts, parse_text_eq, hsplit2]
    have hS0 : popAccum ((0 : Nat) : Int) [rootFrame] none = [rootFrame] :=
      popAccum_noop [] (by show (-1 : Int) < ((0 : Nat) : Int); omega)
    have hphi := (phi hisz (lsize (n :: cs')) (n :: cs') (le_refl _) hInv hSer 0
      [rootFrame] rootFrame [] hS0 ⟨[], rootFrame, rfl, rfl, rfl, rfl⟩).2
    rw [hphi, finishAccum_single]
    show Frame.toNode (addKids rootFrame (n :: cs') ((0 : Nat) : Int)) = _
    simp [addKids, Frame.toNode, rootFrame]

/-- Consistency of a text's indentation: on every line, the leading
whitespace consists of spaces only and its length is a multiple of the
indent size. -/
def linesConsistentB (isz : Nat) (text : List Char) : Bool :=
  (pySplitLines text).all fun l =>
    ((rstripNl l).length - (pyLstrip (rstripNl l)).length) % isz == 0 &&
    ((rstripNl l).take ((rstripNl l).length - (pyLstrip (rstripNl l)).length)).all (· = ' ')

/-- C1 (amended): for every text whose line indentations are consistent
multiples of the indent size, and whose parse additionally contains no node
tagged `Root`, no node with both tag and value empty, and no comment node
with children, `parse(serialize(parse(T)))` is tree-equal to `parse(T)`
(same tags, values and children recursively, the stored depth ignored). -/
theorem claim_C1_amended (isz : Nat) (text : List Char) (hisz : 0 < isz)
    (hcons : linesConsistentB isz text = true)
    (hser : serializableTree (parse_text isz text) = true) :
    treeEq (parse_text isz (to_string isz (parse_text isz text)))
      (parse_text isz text) = true := by
  obtain ⟨cs, hshape⟩ := parse_shape isz text
  have hInvRoot := parse_invariant isz text
  rw [hshape] at hInvRoot hser ⊢
  have hInv : parsedInvL cs = true := (parsedInvN_props hInvRoot).2.2.2.2.2.2
  have hSer : serializableL cs = true := hser
  rw [round_trip_root hisz [] (-1) cs hInv hSer]
  simp only [treeEq, Bool.and_eq_true, beq_self_eq_true, true_and]
  exact ltreeEq_canonL cs 0

/-- C1 (counterexample): the single consistently indented line `"Root"`
parses to a tree that serialization destroys: the node tagged `Root` is
skipped by `to_string`, so the round trip loses it and the trees are not
tree-equal. -/
theorem claim_C1_counterexample :
    linesConsistentB 2 (toL "Root") = true ∧
    treeEq (parse_text 2 (to_string 2 (parse_text 2 (toL "Root"))))
      (parse_text 2 (toL "Root")) = false := by
  constructor
  · rfl
  · rfl

/-- C1 witness: a concrete text satisfying every hypothesis of the amended
round-trip law, with the conclusion instantiated. -/
theorem claim_C1_witness :
    0 < 2 ∧ linesConsistentB 2 (toL "panel\n  image-source: x.png\n  // note\n") = true ∧
    serializableTree (parse_text 2 (toL "panel\n  image-source: x.png\n  // note\n")) = true ∧
    treeEq (parse_text 2 (to_string 2
        (parse_text 2 (toL "panel\n  image-source: x.png\n  // note\n"))))
      (parse_text 2 (toL "panel\n  image-source: x.png\n  // note\n")) = true :=
  ⟨by decide, by rfl, by rfl,
    claim_C1_amended 2 (toL "panel\n  image-source: x.png\n  // note\n")
      (by decide) (by rfl) (by rfl)⟩

/-! ### C2: what the serializer actually emits -/

mutual

/-- Modelled from the claim's words for C2: a depth-first pre-order
traversal of all of the root's descendants, each node rendered at depth
`parentRenderDepth + 1`; comments as `indent + "// " + value`, data nodes
as `indent + tag + ": " + value` or `indent + tag`. -/
def specRenderN (isz : Nat) : OTUINode → Nat → List (List Char)
  | .mk t v _ cs, d =>
    (if t = ['/', '/'] then List.replicate (d * isz) ' ' ++ ['/', '/', ' '] ++ v
     else if v.isEmpty then List.replicate (d * isz) ' ' ++ t
     else List.replicate (d * isz) ' ' ++ t ++ [':', ' '] ++ v) ::
      specRenderL isz cs (d + 1)

def specRenderL (isz : Nat) : List OTUINode → Nat → List (List Char)
  | [], _ => []
  | c :: cs, d => specRenderN isz c d ++ specRenderL isz cs d

end

/-- Modelled from the claim's words for C2: the serializer as the claim
describes it (root not emitted, its direct children at depth 0, every
descendant visited, lines joined by newlines plus a trailing newline when
any line was produced). -/
def claimSerialize (isz : Nat) (root : OTUINode) : List Char :=
  let out := specRenderL isz root.children 0
  joinLines out ++ (if out.isEmpty then [] else ['\n'])

mutual

/-- The traversal `to_string` actually performs, as a visit list of
(render depth, tag, value) triples: a node tagged `Root` is skipped with
its children visited at depth 0, and a comment node's children are not
visited at all. -/
def visitN : OTUINode → Nat → List (Nat × List Char × List Char)
  | .mk t v _ cs, d =>
    if t = toL "Root" then visitL cs 0
    else if t = ['/', '/'] then [(d, t, v)]
    else (d, t, v) :: visitL cs (d + 1)

def visitL : List OTUINode → Nat → List (Nat × List Char × List Char)
  | [], _ => []
  | c :: cs, d => visitN c d ++ visitL cs d

end

/-- Rendering of one visited node. -/
def renderEntry (isz : Nat) : Nat × List Char × List Char → List Char
  | (d, t, v) =>
    if t = ['/', '/'] then List.replicate (d * isz) ' ' ++ ['/', '/', ' '] ++ v
    else if v.isEmpty then List.replicate (d * isz) ' ' ++ t
    else List.replicate (d * isz) ' ' ++ t ++ [':', ' '] ++ v

/-- Modelled from the amended claim for C2: serialization via the actual
visit list. -/
def amendedSerialize (isz : Nat) (root : OTUINode) : List Char :=
  let out := (visitN root 0).map (renderEntry isz)
  joinLines out ++ (if out.isEmpty then [] else ['\n'])

theorem write_visit_aux (isz : Nat) :
    ∀ k : Nat,
      (∀ n, nsize n ≤ k → ∀ d, write isz n d = (visitN n d).map (renderEntry isz)) ∧
      (∀ cs, lsize cs ≤ k → ∀ d, writeAll isz cs d = (visitL cs d).map (renderEntry isz)) := by
  intro k
  induction k with
  | zero =>
    constructor
    · intro n hn
      exfalso
      have := nsize_pos n
      omega
    · intro cs hcs d
      cases cs with
      | nil => rfl
      | cons n cs' =>
        exfalso
        have := nsize_pos n
        rw [lsize_cons] at hcs
        omega
  | succ k ih =>
    have hn : ∀ n, nsize n ≤ k + 1 → ∀ d, write isz n d = (visitN n d).map (renderEntry isz) := by
      intro n hsz d
      cases n with
      | mk t v dep cs =>
        have hcs : lsize cs ≤ k := by
          have : nsize (.mk t v dep cs) = 1 + lsize cs := rfl
          omega
        by_cases hr : t = toL "Root"
        · simp only [write, visitN, if_pos hr]
          exact ih.2 cs hcs 0
        · by_cases hcm : t = ['/', '/']
          · rw [show write isz (.mk t v dep cs) d =
                [List.replicate (d * isz) ' ' ++ ['/', '/', ' '] ++ v] from by
              simp [write, hcm, (by decide : ¬ (['/', '/'] : List Char) = toL "Root")]]
            rw [show visitN (.mk t v dep cs) d = [(d, t, v)] from by
              simp [visitN, hcm, (by decide : ¬ (['/', '/'] : List Char) = toL "Root")]]
            simp [renderEntry, hcm]
          · by_cases hve : v.isEmpty
            · rw [show write isz (.mk t v dep cs) d =
                  (List.replicate (d * isz) ' ' ++ t) :: writeAll isz cs (d + 1) from by
                simp [write, hr, hcm, hve]]
              rw [show visitN (.mk t v dep cs) d = (d, t, v) :: visitL cs (d + 1) from by
                simp [visitN, hr, hcm]]
              rw [List.map_cons, ih.2 cs hcs (d + 1)]
              congr 1
              simp [renderEntry, hcm, hve]
            · rw [show write isz (.mk t v dep cs) d =
                  (List.replicate (d * isz) ' ' ++ t ++ [':', ' '] ++ v) ::
                    writeAll isz cs (d + 1) from by
                simp [write, hr, hcm, hve]]
              rw [show visitN (.mk t v dep cs) d = (d, t, v) :: visitL cs (d + 1) from by
                simp [visitN, hr, hcm]]
              rw [List.map_cons, ih.2 cs hcs (d + 1)]
              congr 1
              simp [renderEntry, hcm, hve]
    refine ⟨hn, ?_⟩
    intro cs hsz d
    cases cs with
    | nil => rfl
    | cons n cs' =>
      rw [lsize_cons] at hsz
      have h1 : nsize n ≤ k + 1 := by omega
      have h2 : lsize cs' ≤ k := by
        have := nsize_pos n
        omega
      show write isz n d ++ writeAll isz cs' d =
        ((visitN n d ++ visitL cs' d).map (renderEntry isz))
      rw [List.map_append, hn n h1 d, ih.2 cs' h2 d]

/-- C2 (amended): `to_string` renders via a depth-first pre-order traversal
in which a node tagged `Root` is not emitted and its children render at
depth 0, a comment node renders as `indent + "// " + value` with its
children not visited, a data node renders as `indent + tag + ": " + value`
when the value is nonempty and as `indent + tag` otherwise, with indent =
indentSize * renderDepth spaces; lines are joined with a single newline
plus one trailing newline iff any line was produced, and the empty tree
serializes to the empty string. -/
theorem claim_C2_amended :
    ∀ (isz : Nat) (root : OTUINode),
      to_string isz root = amendedSerialize isz root ∧
      to_string isz (parse_text isz []) = [] := by
  intro isz root
  constructor
  · show (let out := write isz root 0
      joinLines out ++ (if out.isEmpty then [] else ['\n'])) =
      (let out := (visitN root 0).map (renderEntry isz)
      joinLines out ++ (if out.isEmpty then [] else ['\n']))
    rw [(write_visit_aux isz (nsize root)).1 root (le_refl _) 0]
  · rfl

/-- C2 (counterexample): on a tree whose comment node has a child, the
claimed full pre-order rendering includes the comment's child while
`to_string` drops it, so `to_string` is not the function the claim
describes. -/
theorem claim_C2_counterexample :
    to_string 2 (.mk (toL "Root") [] (-1)
        [.mk ['/', '/'] (toL "c") 0 [.mk (toL "a") [] 1 []]]) ≠
      claimSerialize 2 (.mk (toL "Root") [] (-1)
        [.mk ['/', '/'] (toL "c") 0 [.mk (toL "a") [] 1 []]]) := by
  decide

/-! ### C6: parse is total, returns the root, and loses no line -/

theorem lsize_append : ∀ (a b : List OTUINode), lsize (a ++ b) = lsize a + lsize b := by
  intro a b
  induction a with
  | nil => simp [lsize]
  | cons n a ih => simp [lsize_cons, ih]; omega

theorem lsize_reverse : ∀ (a : List OTUINode), lsize a.reverse = lsize a := by
  intro a
  induction a with
  | nil => rfl
  | cons n a ih =>
    rw [List.reverse_cons, lsize_append, ih, lsize_cons]
    simp [lsize, nsize_pos]
    omega

def frameCount (f : Frame) : Nat := 1 + lsize f.childrenRev

def stackCount : List Frame → Nat
  | [] => 0
  | f :: rest => frameCount f + stackCount rest

def pendCount : Option OTUINode → Nat
  | none => 0
  | some n => nsize n

theorem stackCount_cons (f : Frame) (rest : List Frame) :
    stackCount (f :: rest) = frameCount f + stackCount rest := rfl

theorem frameCount_mergePend (f : Frame) (pend : Option OTUINode) :
    frameCount (mergePend f pend) = frameCount f + pendCount pend := by
  cases pend with
  | none => simp [mergePend_none, pendCount]
  | some n => simp [frameCount, mergePend, lsize_cons, pendCount]; omega

theorem nsize_toNode (f : Frame) : nsize f.toNode = frameCount f := by
  show nsize (.mk f.ftag f.fvalue f.fdepth f.childrenRev.reverse) = _
  show 1 + lsize f.childrenRev.reverse = _
  rw [lsize_reverse]
  rfl

theorem popAccum_count :
    ∀ (S₀ : List Frame) (fr : Frame) (pend : Option OTUINode) (d : Int),
      fr.fdepth < d →
      stackCount (popAccum d (S₀ ++ [fr]) pend) = stackCount (S₀ ++ [fr]) + pendCount pend := by
  intro S₀
  induction S₀ with
  | nil =>
    intro fr pend d hlt
    rw [List.nil_append, popAccum_unfold, if_neg (not_le.mpr hlt)]
    show frameCount (mergePend fr pend) + 0 = (frameCount fr + 0) + pendCount pend
    rw [frameCount_mergePend]
    omega
  | cons g S₀' ih =>
    intro fr pend d hlt
    rw [List.cons_append, popAccum_unfold]
    by_cases hd : d ≤ g.fdepth
    · rw [if_pos hd, ih fr _ d hlt]
      show stackCount (S₀' ++ [fr]) + pendCount (some (mergePend g pend).toNode) =
        frameCount g + stackCount (S₀' ++ [fr]) + pendCount pend
      show stackCount (S₀' ++ [fr]) + nsize (mergePend g pend).toNode = _
      rw [nsize_toNode, frameCount_mergePend]
      omega
    · rw [if_neg hd]
      show frameCount (mergePend g pend) + stackCount (S₀' ++ [fr]) = _
      rw [frameCount_mergePend]
      show frameCount g + pendCount pend + stackCount (S₀' ++ [fr]) =
        frameCount g + stackCount (S₀' ++ [fr]) + pendCount pend
      omega

theorem parse_line_count {isz : Nat} {S : List Frame} (raw : List Char)
    (hBot : BotInv S) :
    stackCount (parse_line isz S raw) =
      stackCount S + (if (pyLstrip (rstripNl raw)).isEmpty then 0 else 1) := by
  by_cases hb : (pyLstrip (rstripNl raw)).isEmpty
  · simp only [parse_line, hb, if_true]
    omega
  · simp only [parse_line, hb, Bool.false_eq_true, if_false]
    obtain ⟨S₀, fr, hS, hd, _, _⟩ := hBot
    subst hS
    have hlt : fr.fdepth <
        (((rstripNl raw).length - (pyLstrip (rstripNl raw)).length) / isz : Nat) := by
      have : (0 : Int) ≤
          (((rstripNl raw).length - (pyLstrip (rstripNl raw)).length) / isz : Nat) :=
        Int.natCast_nonneg _
      omega
    rw [stackCount_cons, popAccum_count S₀ fr none _ hlt]
    split
    · show (1 + lsize ([] : List OTUINode)) + (stackCount (S₀ ++ [fr]) + pendCount none) =
        stackCount (S₀ ++ [fr]) + 1
      show (1 + 0) + (stackCount (S₀ ++ [fr]) + 0) = _
      omega
    · split
      · show (1 + lsize ([] : List OTUINode)) + (stackCount (S₀ ++ [fr]) + pendCount none) =
          stackCount (S₀ ++ [fr]) + 1
        show (1 + 0) + (stackCount (S₀ ++ [fr]) + 0) = _
        omega
      · show (1 + lsize ([] : List OTUINode)) + (stackCount (S₀ ++ [fr]) + pendCount none) =
          stackCount (S₀ ++ [fr]) + 1
        show (1 + 0) + (stackCount (S₀ ++ [fr]) + 0) = _
        omega

theorem runL_count {isz : Nat} :
    ∀ (ls : List (List Char)) (S : List Frame), BotInv S →
      stackCount (runL isz ls S) =
        stackCount S + (ls.filter fun l => !(pyLstrip (rstripNl l)).isEmpty).length := by
  intro ls
  induction ls with
  | nil => intro S _; simp [runL_nil]
  | cons l ls ih =>
    intro S hBot
    rw [runL_cons, ih _ (botInv_parse_line isz l hBot), parse_line_count l hBot]
    by_cases hb : (pyLstrip (rstripNl l)).isEmpty
    · simp [hb, List.filter]
    · have hb' : (!(pyLstrip (rstripNl l)).isEmpty) = true := by
        cases h : (pyLstrip (rstripNl l)).isEmpty
        · rfl
        · exact absurd h hb
      simp [hb, List.filter_cons, hb']
      omega

theorem finishAccum_count :
    ∀ (rest : List Frame) (f : Frame) (pend : Option OTUINode),
      nsize (finishAccum (f :: rest) pend) = stackCount (f :: rest) + pendCount pend := by
  intro rest
  induction rest with
  | nil =>
    intro f pend
    rw [finishAccum_unfold]
    show nsize (mergePend f pend).toNode = _
    rw [nsize_toNode, frameCount_mergePend]
    show frameCount f + pendCount pend = frameCount f + stackCount [] + pendCount pend
    show frameCount f + pendCount pend = frameCount f + 0 + pendCount pend
    omega
  | cons g rest' ih =>
    intro f pend
    rw [finishAccum_unfold, ih]
    show stackCount (g :: rest') + pendCount (some (mergePend f pend).toNode) = _
    show stackCount (g :: rest') + nsize (mergePend f pend).toNode = _
    rw [nsize_toNode, frameCount_mergePend]
    show stackCount (g :: rest') + (frameCount f + pendCount pend) =
      frameCount f + stackCount (g :: rest') + pendCount pend
    omega

/-- The number of non-blank lines of a text (a blank line is one that is
empty after stripping). -/
def nonblankCount (text : List Char) : Nat :=
  ((pySplitLines text).filter fun l => !(pyLstrip (rstripNl l)).isEmpty).length

/-- C6: parse is total: for every text (and every positive indent size) it
returns a root node tagged `Root` with depth `-1`; the open-node stack is
never emptied at any point of the run, and every non-blank line attaches to
some parent — the resulting tree holds exactly `1 + number of non-blank
lines` nodes, so no line is lost. -/
theorem claim_C6 (isz : Nat) (hisz : 0 < isz) (text : List Char) :
    (parse_text isz text).tag = toL "Root" ∧
    (parse_text isz text).depth = -1 ∧
    nsize (parse_text isz text) = 1 + nonblankCount text ∧
    ∀ l1 l2 : List (List Char), pySplitLines text = l1 ++ l2 →
      runL isz l1 [rootFrame] ≠ [] := by
  obtain ⟨cs, hshape⟩ := parse_shape isz text
  refine ⟨by rw [hshape]; rfl, by rw [hshape]; rfl, ?_, ?_⟩
  · rw [parse_text_eq]
    have hBot0 : BotInv [rootFrame] := ⟨[], rootFrame, rfl, rfl, rfl, rfl⟩
    obtain ⟨S₀, fr, hS, _, _, _⟩ := botInv_runL isz (pySplitLines text) [rootFrame] hBot0
    have hrun := @runL_count isz (pySplitLines text) [rootFrame] hBot0
    cases hrl : runL isz (pySplitLines text) [rootFrame] with
    | nil =>
      exfalso
      rw [hrl] at hS
      exact absurd hS.symm (List.append_ne_nil_of_right_ne_nil _ (by simp))
    | cons f rest =>
      rw [hrl] at hrun
      rw [finishAccum_count]
      rw [hrun]
      show stackCount [rootFrame] + _ + pendCount none = _
      show frameCount rootFrame + stackCount [] + _ + 0 = _
      show 1 + lsize [] + 0 + _ + 0 = _
      show 1 + 0 + 0 + _ + 0 = _
      rfl
  · intro l1 l2 hsplit
    obtain ⟨S₀, fr, hS, _, _, _⟩ :=
      botInv_runL isz l1 [rootFrame] ⟨[], rootFrame, rfl, rfl, rfl, rfl⟩
    rw [hS]
    exact List.append_ne_nil_of_right_ne_nil _ (by simp)

/-- C6 witness: the theorem instantiated at a concrete indent size and
text. -/
theorem claim_C6_witness :
    0 < 2 ∧
    ((parse_text 2 (toL "a\n\n  b: 1\n")).tag = toL "Root" ∧
     (parse_text 2 (toL "a\n\n  b: 1\n")).depth = -1 ∧
     nsize (parse_text 2 (toL "a\n\n  b: 1\n")) = 1 + nonblankCount (toL "a\n\n  b: 1\n") ∧
     ∀ l1 l2 : List (List Char), pySplitLines (toL "a\n\n  b: 1\n") = l1 ++ l2 →
       runL 2 l1 [rootFrame] ≠ []) :=
  ⟨by decide, claim_C6 2 (by decide) (toL "a\n\n  b: 1\n")⟩

/-! ### C10: stored depths strictly increase along every edge -/

mutual

/-- Every child of the node has a strictly larger stored depth, recursively. -/
def depthsIncN : OTUINode → Bool
  | .mk _ _ dd cs => depthsIncL dd cs

def depthsIncL : Int → List OTUINode → Bool
  | _, [] => true
  | dd, c :: cs => (dd < c.depth) && depthsIncN c && depthsIncL dd cs

end

theorem depthsIncL_forall :
    ∀ (cs : List OTUINode) (dd : Int),
      depthsIncL dd cs = true ↔ ∀ n ∈ cs, dd < n.depth ∧ depthsIncN n = true := by
  intro cs
  induction cs with
  | nil => simp [depthsIncL]
  | cons n cs ih =>
    intro dd
    simp [depthsIncL, Bool.and_eq_true, ih, List.forall_mem_cons, and_assoc]

/-- Depth-order invariant of one frame: every collected child is deeper. -/
def frameOKd (f : Frame) : Prop :=
  ∀ n ∈ f.childrenRev, f.fdepth < n.depth ∧ depthsIncN n = true

theorem frameOKd_toNode {f : Frame} (h : frameOKd f) : depthsIncN f.toNode = true := by
  show depthsIncL f.fdepth f.childrenRev.reverse = true
  rw [depthsIncL_forall]
  intro n hn
  exact h n (List.mem_reverse.mp hn)

theorem frameOKd_mergePend {f : Frame} (h : frameOKd f) (pend : Option OTUINode)
    (hp : ∀ n, pend = some n → depthsIncN n = true ∧ f.fdepth < n.depth) :
    frameOKd (mergePend f pend) := by
  cases pend with
  | none => exact h
  | some n =>
    intro m hm
    show f.fdepth < m.depth ∧ _
    rcases List.mem_cons.mp hm with hm | hm
    · rw [hm]
      exact ⟨(hp n rfl).2, (hp n rfl).1⟩
    · exact h m hm

theorem popAccum_DInv :
    ∀ (S : List Frame) (pend : Option OTUINode) (d : Int),
      (∀ f ∈ S, frameOKd f) →
      List.Chain' (fun a b => b.fdepth < a.fdepth) S →
      (∀ n, pend = some n →
        depthsIncN n = true ∧ ∀ g ∈ S.head?, g.fdepth < n.depth) →
      (∀ f ∈ popAccum d S pend, frameOKd f) ∧
        List.Chain' (fun a b => b.fdepth < a.fdepth) (popAccum d S pend) := by
  intro S
  induction S with
  | nil =>
    intro pend d _ _ _
    constructor
    · intro f hf; simp [popAccum_nil] at hf
    · rw [popAccum_nil]; exact List.chain'_nil
  | cons g rest ih =>
    intro pend d hOK hCh hp
    have hg' : frameOKd (mergePend g pend) := by
      refine frameOKd_mergePend (hOK g (List.mem_cons_self _ _)) pend ?_
      intro n hn
      refine ⟨(hp n hn).1, ?_⟩
      exact (hp n hn).2 g (by simp)
    rw [popAccum_unfold]
    by_cases hd : d ≤ g.fdepth
    · rw [if_pos hd]
      refine ih _ _ (fun x hx => hOK x (List.mem_cons_of_mem _ hx))
        (List.Chain'.tail hCh) ?_
      intro n hn
      injection hn with hn'
      constructor
      · rw [← hn']
        exact frameOKd_toNode hg'
      · intro g2 hg2
        rw [← hn']
        show g2.fdepth < (mergePend g pend).toNode.depth
        have : (mergePend g pend).toNode.depth = g.fdepth := by
          rw [show (mergePend g pend).toNode.depth = (mergePend g pend).fdepth from rfl,
            mergePend_fdepth]
        rw [this]
        have := List.chain'_cons'.mp hCh
        exact this.1 g2 hg2
    · rw [if_neg hd]
      constructor
      · intro x hx
        rcases List.mem_cons.mp hx with h | h
        · rw [h]; exact hg'
        · exact hOK x (List.mem_cons_of_mem _ h)
      · rw [List.chain'_cons']
        have := List.chain'_cons'.mp hCh
        refine ⟨?_, this.2⟩
        intro y hy
        rw [mergePend_fdepth]
        exact this.1 y hy

theorem parse_line_DInv {isz : Nat} {S : List Frame} (raw : List Char)
    (hBot : BotInv S) (hOK : ∀ f ∈ S, frameOKd f)
    (hCh : List.Chain' (fun a b => b.fdepth < a.fdepth) S) :
    (∀ f ∈ parse_line isz S raw, frameOKd f) ∧
      List.Chain' (fun a b => b.fdepth < a.fdepth) (parse_line isz S raw) := by
  by_cases hb : (pyLstrip (rstripNl raw)).isEmpty
  · simp only [parse_line, hb, if_true]
    exact ⟨hOK, hCh⟩
  · simp only [parse_line, hb, Bool.false_eq_true, if_false]
    have hpop := popAccum_DInv S none
      (((rstripNl raw).length - (pyLstrip (rstripNl raw)).length) / isz : Nat)
      hOK hCh (fun n hn => by simp at hn)
    have hd0 : (0 : Int) ≤
        (((rstripNl raw).length - (pyLstrip (rstripNl raw)).length) / isz : Nat) :=
      Int.natCast_nonneg _
    have hBot' := botInv_popAccum (S := S) none (d :=
      (((rstripNl raw).length - (pyLstrip (rstripNl raw)).length) / isz : Nat))
      (by omega) hBot
    constructor
    · intro f hf
      rcases List.mem_cons.mp hf with h | h
      · rw [h]
        split
        · intro m hm; simp at hm
        · split
          · intro m hm; simp at hm
          · intro m hm; simp at hm
      · exact hpop.1 f h
    · rw [List.chain'_cons']
      refine ⟨?_, hpop.2⟩
      intro y hy
      obtain ⟨S₀', fr', hEq, _, _, _⟩ := hBot'
      have hlt : y.fdepth <
          (((rstripNl raw).length - (pyLstrip (rstripNl raw)).length) / isz : Nat) := by
        cases hpa : popAccum
            (((rstripNl raw).length - (pyLstrip (rstripNl raw)).length) / isz : Nat)
            S none with
        | nil => rw [hpa] at hy; simp at hy
        | cons f0 rest0 =>
          rw [hpa] at hy
          simp only [List.head?_cons, Option.mem_def, Option.some.injEq] at hy
          rw [← hy]
          exact popAccum_head_lt S none f0 rest0 hpa
      split
      · exact hlt
      · split
        · exact hlt
        · exact hlt

theorem runL_DInv {isz : Nat} :
    ∀ (ls : List (List Char)) (S : List Frame), BotInv S →
      (∀ f ∈ S, frameOKd f) →
      List.Chain' (fun a b => b.fdepth < a.fdepth) S →
      (∀ f ∈ runL isz ls S, frameOKd f) ∧
        List.Chain' (fun a b => b.fdepth < a.fdepth) (runL isz ls S) := by
  intro ls
  induction ls with
  | nil => intro S _ hOK hCh; exact ⟨hOK, hCh⟩
  | cons l ls ih =>
    intro S hBot hOK hCh
    rw [runL_cons]
    have := @parse_line_DInv isz _ l hBot hOK hCh
    exact ih _ (botInv_parse_line isz l hBot) this.1 this.2

theorem finishAccum_DInv :
    ∀ (S : List Frame) (pend : Option OTUINode),
      (∀ f ∈ S, frameOKd f) →
      List.Chain' (fun a b => b.fdepth < a.fdepth) S →
      (∀ n, pend = some n →
        depthsIncN n = true ∧ ∀ g ∈ S.head?, g.fdepth < n.depth) →
      depthsIncN (finishAccum S pend) = true := by
  intro S
  induction S with
  | nil =>
    intro pend _ _ hp
    cases pend with
    | none => decide
    | some n => exact (hp n rfl).1
  | cons g rest ih =>
    intro pend hOK hCh hp
    rw [finishAccum_unfold]
    have hg' : frameOKd (mergePend g pend) := by
      refine frameOKd_mergePend (hOK g (List.mem_cons_self _ _)) pend ?_
      intro n hn
      exact ⟨(hp n hn).1, (hp n hn).2 g (by simp)⟩
    refine ih _ (fun x hx => hOK x (List.mem_cons_of_mem _ hx))
      (List.Chain'.tail hCh) ?_
    intro n hn
    injection hn with hn'
    constructor
    · rw [← hn']
      exact frameOKd_toNode hg'
    · intro g2 hg2
      rw [← hn']
      show g2.fdepth < (mergePend g pend).toNode.depth
      have heq : (mergePend g pend).toNode.depth = g.fdepth := by
        rw [show (mergePend g pend).toNode.depth = (mergePend g pend).fdepth from rfl,
          mergePend_fdepth]
      rw [heq]
      exact (List.chain'_cons'.mp hCh).1 g2 hg2

/-- C10: in every tree returned by `parse_text`, stored depths strictly
increase along every parent-to-child edge, with the root at depth `-1`:
a node is attached only after every open node of greater-or-equal depth
has been popped. -/
theorem claim_C10 (isz : Nat) (hisz : 0 < isz) (text : List Char) :
    (parse_text isz text).depth = -1 ∧ depthsIncN (parse_text isz text) = true := by
  obtain ⟨cs, hshape⟩ := parse_shape isz text
  constructor
  · rw [hshape]; rfl
  · rw [parse_text_eq]
    have hBot0 : BotInv [rootFrame] := ⟨[], rootFrame, rfl, rfl, rfl, rfl⟩
    have hrun := @runL_DInv isz (pySplitLines text) [rootFrame] hBot0
      (by intro f hf
          rcases List.mem_singleton.mp hf with h
          rw [h]
          intro m hm
          simp [rootFrame] at hm)
      (List.chain'_singleton _)
    exact finishAccum_DInv _ none hrun.1 hrun.2 (fun n hn => by simp at hn)

/-- C10 witness: the theorem instantiated at a concrete input. -/
theorem claim_C10_witness :
    0 < 2 ∧
    ((parse_text 2 (toL "a\n  b\n c\n")).depth = -1 ∧
      depthsIncN (parse_text 2 (toL "a\n  b\n c\n")) = true) :=
  ⟨by decide, claim_C10 2 (by decide) (toL "a\n  b\n c\n")⟩

/-! ### The asset resolver: paths and filesystem model

POSIX `pathlib`-style paths: an absolute flag plus components.  `pathlib`
normalizes away empty and `"."` components and keeps `".."`; `str` and
`Path(...)` round-trip on such normalized paths, so dictionary keys that
Python stores as `str(path)` are modelled as the paths themselves.
Filesystem access (`os.walk` snapshots, `is_dir`, `exists`, `resolve`,
`read_text`) is abstracted as explicit model fields; `read_text` failure
(the `except` path) is a `none` content. -/

def splitSlashAcc : List Char → List Char → List (List Char)
  | [], acc => [acc.reverse]
  | c :: rest, acc =>
    if c = '/' then acc.reverse :: splitSlashAcc rest []
    else splitSlashAcc rest (c :: acc)

def splitSlash (s : List Char) : List (List Char) := splitSlashAcc s []

structure PyPath where
  absolute : Bool
  comps : List (List Char)
deriving DecidableEq

def pathOfString (s : List Char) : PyPath :=
  { absolute := s.take 1 == ['/'],
    comps := (splitSlash s).filter fun c => !c.isEmpty && c != ['.'] }

/-- `pathlib` `/` operator: an absolute right operand replaces the left. -/
def joinP (a b : PyPath) : PyPath :=
  if b.absolute then b else ⟨a.absolute, a.comps ++ b.comps⟩

/-- `Path.parent`: drop the last component ( `Path('/').parent == Path('/')`,
`Path('.').parent == Path('.')`). -/
def PyPath.parentP (p : PyPath) : PyPath :=
  if p.comps.isEmpty then p else ⟨p.absolute, p.comps.dropLast⟩

/-- `Path.name`: the final component, or `""`. -/
def PyPath.nameP (p : PyPath) : List Char := p.comps.getLastD []

/-- The extension part of `os.path.splitext` on a basename: the suffix from
the last dot, except that leading dots of the name never start an
extension. -/
def extOf (nm : List Char) : List Char :=
  let lead := nm.takeWhile (· = '.')
  let rest := nm.drop lead.length
  if ('.') ∈ rest then '.' :: (rest.reverse.takeWhile (· ≠ '.')).reverse else []

def lowerL (s : List Char) : List Char := s.map Char.toLower

/-- `IMG_EXTS` from the source, in its order. -/
def IMG_EXTS : List (List Char) :=
  [toL ".png", toL ".jpg", toL ".jpeg", toL ".bmp", toL ".webp", toL ".gif"]

/-- `LIKELY_DIRS` from the source, in its order. -/
def LIKELY_DIRS : List (List Char) :=
  [toL "images", toL "textures", toL "icons", toL "img", toL "resources", toL "assets"]

mutual

/-- `collect_image_sources`: every value of a node whose tag lowercases to
`image-source` (value nonempty), stripped of whitespace and quotes, in
pre-order. -/
def collect_image_sources : OTUINode → List (List Char)
  | .mk t v _ cs =>
    (if lowerL t == toL "image-source" && !v.isEmpty then
      [stripCharBoth quotC (stripCharBoth aposC (pyStrip v))]
    else []) ++ collectL cs

def collectL : List OTUINode → List (List Char)
  | [] => []
  | c :: cs => collect_image_sources c ++ collectL cs

end

/-- One file seen by `os.walk`: its name and its text content, or `none`
when `read_text` would raise. -/
structure FileRec where
  fname : List Char
  content : Option (List Char)
deriving DecidableEq

/-- One directory visited by `os.walk(mod_dir)`, in walk order. -/
structure WalkEntry where
  wdir : PyPath
  files : List FileRec
deriving DecidableEq

/-- Snapshot of the filesystem as `discover_images_base` observes it:
the `os.walk(mod_dir)` sequence and the `is_dir` predicate. -/
structure DiscoverFS where
  walk : List WalkEntry
  isDir : PyPath → Bool

/-- Python-dict lookup with default 0 (keys are unique in the dicts the
code builds, and the first binding is the one `dict` holds). -/
def alGetD : List (PyPath × Nat) → PyPath → Nat
  | [], _ => 0
  | kv :: rest, k => if kv.1 = k then kv.2 else alGetD rest k

/-- Python-dict assignment: update in place, else append (insertion order). -/
def alSet : List (PyPath × Nat) → PyPath → Nat → List (PyPath × Nat)
  | [], k, v => [(k, v)]
  | kv :: rest, k, v => if kv.1 = k then (k, v) :: rest else kv :: alSet rest k v

/-- `d[k] = d.get(k, 0) + 1`. -/
def alBump (h : List (PyPath × Nat)) (k : PyPath) : List (PyPath × Nat) :=
  alSet h k (alGetD h k + 1)

/-- `max(items, key=value)`: the first item of maximal value (later items
replace the current best only when strictly greater). -/
def alArgmax : List (PyPath × Nat) → (PyPath × Nat) → (PyPath × Nat)
  | [], best => best
  | kv :: rest, best => alArgmax rest (if best.2 < kv.2 then kv else best)

def alMax : List (PyPath × Nat) → Option (PyPath × Nat)
  | [] => none
  | kv :: rest => some (alArgmax rest kv)

/-- The extensions of the strategy-3 regex alternation, in its order. -/
def LUA_EXTS : List (List Char) :=
  [toL "png", toL "jpg", toL "jpeg", toL "bmp", toL "gif", toL "webp"]

/-- Does a double-quoted literal's content match
`[^"]+\.(?:png|jpg|jpeg|bmp|gif|webp)` case-insensitively?  (At least one
character, then a dot, then one of the extensions, at the very end.) -/
def isImgLiteral (content : List Char) : Bool :=
  LUA_EXTS.any fun e =>
    ('.' :: e).isSuffixOf (lowerL content) && decide (e.length + 2 ≤ content.length)

/-- `re.finditer(r'"([^"]+\.(?:png|...))"', txt)` on the character list:
scan left to right; a quote opens a literal; at the closing quote the
collected content is emitted when it matches, otherwise the closing quote
becomes the next opening quote (this is exactly how the regex engine
advances over a failed alternative). `acc` holds the pending content
reversed. -/
def scanLits : List Char → Option (List Char) → List (List Char)
  | [], _ => []
  | c :: cs, none =>
    if c = quotC then scanLits cs (some []) else scanLits cs none
  | c :: cs, some acc =>
    if c = quotC then
      if isImgLiteral acc.reverse then acc.reverse :: scanLits cs none
      else scanLits cs (some [])
    else scanLits cs (some (c :: acc))

def findLits (s : List Char) : List (List Char) := scanLits s none

/-- One file of the strategy-3 scan: a readable `.lua` file (name compared
lowercased) bumps `(scriptFileDir / extractedPath).parent` once per
matching double-quoted literal; an unreadable one contributes nothing (the
`except: pass` skips it). -/
def luaFileStep (w : PyPath) (h2 : List (PyPath × Nat)) (f : FileRec) :
    List (PyPath × Nat) :=
  if (toL ".lua").isSuffixOf (lowerL f.fname) then
    match f.content with
    | some txt =>
      (findLits txt).foldl (fun h3 lit =>
        alBump h3 ((joinP w (pathOfString lit)).parentP)) h2
    | none => h2
  else h2

/-- One `os.walk` directory of the strategy-3 scan. -/
def luaDirStep (h : List (PyPath × Nat)) (e : WalkEntry) : List (PyPath × Nat) :=
  e.files.foldl (luaFileStep e.wdir) h

/-- The candidate-folder map built by strategy 3. -/
def luaHits (walk : List WalkEntry) : List (PyPath × Nat) :=
  walk.foldl luaDirStep []

/-- Strategy 3 of `discover_images_base`. -/
def strategy3 (fs : DiscoverFS) : Option PyPath :=
  match alMax (luaHits fs.walk) with
  | none => none
  | some best => if fs.isDir best.1 then some best.1 else none

def dedupL : List (List Char) → List (List Char)
  | [] => []
  | x :: xs => if x ∈ xs then dedupL xs else x :: dedupL xs

/-- `len(names & set(files))`: how many distinct file names of the
directory appear among the collected basenames. -/
def countCommon (names : List (List Char)) (files : List FileRec) : Nat :=
  (dedupL (files.map (fun f => f.fname))).countP fun nm => decide (nm ∈ names)

/-- Strategy 2 of `discover_images_base`: basename frequency scan. -/
def strategy2 (fs : DiscoverFS) (root : OTUINode) : Option PyPath :=
  let imgs := collect_image_sources root
  let names := imgs.map fun v => (pathOfString v).nameP
  let hits := fs.walk.foldl (fun h e =>
    let common := countCommon names e.files
    if 0 < common then alSet h e.wdir common else h) []
  match alMax hits with
  | none => none
  | some best => some best.1

/-- Strategy 1 of `discover_images_base`: first name of `LIKELY_DIRS` that
is a directory under `mod_dir`. -/
def firstLikely (fs : DiscoverFS) (modDir : PyPath) : List (List Char) → Option PyPath
  | [] => none
  | d :: ds =>
    let p := joinP modDir (pathOfString d)
    if fs.isDir p then some p else firstLikely fs modDir ds

/-- `discover_images_base`: the three ordered strategies, first success
wins. -/
def discover_images_base (otui_path : PyPath) (fs : DiscoverFS) (root : OTUINode) :
    Option PyPath :=
  let mod_dir := otui_path.parentP
  match firstLikely fs mod_dir LIKELY_DIRS with
  | some p => some p
  | none =>
    match strategy2 fs root with
    | some p => some p
    | none => strategy3 fs

/-- Filesystem as `resolve_image` observes it: `exists`, `Path.resolve`
canonicalization, and the `os.walk(otui_dir)` snapshot (directory and file
names). -/
structure ResolveFS where
  pexists : PyPath → Bool
  canon : PyPath → PyPath
  walk : List (PyPath × List (List Char))

/-- The value normalization of `resolve_image`:
`val.strip().strip("'").strip('"').replace("\\", "/").lstrip("/")`. -/
def normalizeVal (val : List Char) : List Char :=
  ((stripCharBoth quotC (stripCharBoth aposC (pyStrip val))).map
    fun c => if c = bslashC then '/' else c).dropWhile (· = '/')

/-- The candidates one directory contributes: the value itself when its
(joined) basename has an extension, else one candidate per `IMG_EXTS`
entry, in order, by string concatenation. -/
def extCandidates (dir : PyPath) (v : List Char) : List PyPath :=
  let p := joinP dir (pathOfString v)
  if !(extOf p.nameP).isEmpty then [p]
  else IMG_EXTS.map fun e => joinP dir (pathOfString (v ++ e))

/-- The basename-scan candidates: every file under `otui_dir` whose
lowercased name equals the value's lowercased basename, in walk order. -/
def walkCandidates (fs : ResolveFS) (v : List Char) : List PyPath :=
  (fs.walk.map fun rc =>
    (rc.2.filter fun f => lowerL f == lowerL (pathOfString v).nameP).map
      fun f => joinP rc.1 (pathOfString f)).flatten

/-- The final loop of `resolve_image`: canonicalize each candidate, skip
ones already seen, return the first that exists. -/
def firstExisting (fs : ResolveFS) : List PyPath → List PyPath → Option PyPath
  | _, [] => none
  | seen, c :: cs =>
    let c' := fs.canon c
    if c' ∈ seen then firstExisting fs seen cs
    else if fs.pexists c' then some c'
    else firstExisting fs (c' :: seen) cs

/-- `resolve_image`. -/
def resolve_image (fs : ResolveFS) (images_base : Option PyPath) (otui_dir : PyPath)
    (val : List Char) : Option PyPath :=
  if val.isEmpty then none
  else
    let v := normalizeVal val
    let candidates :=
      (match images_base with
       | some base => extCandidates base v
       | none => []) ++ extCandidates otui_dir v ++ walkCandidates fs v
    firstExisting fs [] candidates

/-! ### C8: the known-name scan wins first, in list order -/

theorem firstLikely_spec (fs : DiscoverFS) (modDir : PyPath) :
    ∀ (ds : List (List Char)) (i : Nat) (hi : i < ds.length),
      fs.isDir (joinP modDir (pathOfString (ds.get ⟨i, hi⟩))) = true →
      (∀ j (hj : j < i),
        fs.isDir (joinP modDir (pathOfString (ds.get ⟨j, Nat.lt_trans hj hi⟩))) = false) →
      firstLikely fs modDir ds = some (joinP modDir (pathOfString (ds.get ⟨i, hi⟩))) := by
  intro ds
  induction ds with
  | nil => intro i hi; simp at hi
  | cons d ds' ih =>
    intro i hi hdir hprev
    cases i with
    | zero =>
      simp only [List.get] at hdir
      simp only [firstLikely, hdir, if_true, List.get]
    | succ i' =>
      have h0 : fs.isDir (joinP modDir (pathOfString d)) = false := by
        have := hprev 0 (Nat.succ_pos i')
        simpa using this
      have hi' : i' < ds'.length := by simpa using hi
      simp only [firstLikely, h0, Bool.false_eq_true, if_false]
      have := ih i' hi' (by simpa using hdir)
        (fun j hj => by simpa using hprev (j + 1) (Nat.succ_lt_succ hj))
      simpa using this

/-- C8: if at least one of the fixed ordered names exists as a directory
directly under the document directory, `discover_images_base` returns the
first such directory in list order, regardless of the tree, without the
later strategies. -/
theorem claim_C8 (fs : DiscoverFS) (root : OTUINode) (otui_path : PyPath)
    (i : Nat) (hi : i < LIKELY_DIRS.length)
    (hdir : fs.isDir (joinP otui_path.parentP
      (pathOfString (LIKELY_DIRS.get ⟨i, hi⟩))) = true)
    (hprev : ∀ j (hj : j < i), fs.isDir (joinP otui_path.parentP
      (pathOfString (LIKELY_DIRS.get ⟨j, Nat.lt_trans hj hi⟩))) = false) :
    discover_images_base otui_path fs root =
      some (joinP otui_path.parentP (pathOfString (LIKELY_DIRS.get ⟨i, hi⟩))) := by
  have h := firstLikely_spec fs otui_path.parentP LIKELY_DIRS i hi hdir hprev
  simp only [discover_images_base, h]

/-- Concrete filesystem for the C8 witness: only `mod/textures` exists. -/
def c8fs : DiscoverFS := ⟨[], fun p => p == PyPath.mk true [toL "mod", toL "textures"]⟩

def c8path : PyPath := PyPath.mk true [toL "mod", toL "x.otui"]

/-- C8 witness: the second name, `textures`, is the only existing
directory, so it is returned. -/
theorem claim_C8_witness :
    c8fs.isDir (joinP c8path.parentP (pathOfString (LIKELY_DIRS.get ⟨1, by decide⟩))) = true ∧
    discover_images_base c8path c8fs (.mk (toL "Root") [] (-1) []) =
      some (joinP c8path.parentP (pathOfString (LIKELY_DIRS.get ⟨1, by decide⟩))) :=
  ⟨by decide,
    claim_C8 c8fs (.mk (toL "Root") [] (-1) []) c8path 1 (by decide) (by decide)
      (by
        intro j hj
        have hj0 : j = 0 := by omega
        subst hj0
        exact (by decide : c8fs.isDir (joinP c8path.parentP
          (pathOfString (LIKELY_DIRS.get ⟨0, by decide⟩))) = false))⟩

/-! ### C7: extension inference tries the fixed order, first hit wins -/

theorem firstExisting_eq_find (fs : ResolveFS) :
    ∀ (cs : List PyPath) (seen : List PyPath),
      (∀ s ∈ seen, fs.pexists s = false) →
      firstExisting fs seen cs =
        Option.map fs.canon (cs.find? fun c => fs.pexists (fs.canon c)) := by
  intro cs
  induction cs with
  | nil => intro seen _; rfl
  | cons c cs ih =>
    intro seen hseen
    simp only [firstExisting]
    by_cases hmem : fs.canon c ∈ seen
    · rw [if_pos hmem]
      have hfalse : fs.pexists (fs.canon c) = false := hseen _ hmem
      rw [List.find?_cons_of_neg _ (by simp [hfalse])]
      exact ih seen hseen
    · rw [if_neg hmem]
      by_cases hex : fs.pexists (fs.canon c) = true
      · rw [if_pos hex,
          List.find?_cons_of_pos (p := fun c => fs.pexists (fs.canon c)) _ hex]
        rfl
      · have hex' : fs.pexists (fs.canon c) = false := by
          cases h : fs.pexists (fs.canon c)
          · rfl
          · exact absurd h hex
        rw [if_neg hex, List.find?_cons_of_neg _ (by simp [hex'])]
        refine ih _ ?_
        intro s hs
        rcases List.mem_cons.mp hs with h | h
        · rw [h]; exact hex'
        · exact hseen s h

theorem find?_at_index {α : Type} (p : α → Bool) :
    ∀ (l r : List α) (i : Nat) (hi : i < l.length),
      (∀ j (hj : j < i), p (l.get ⟨j, Nat.lt_trans hj hi⟩) = false) →
      p (l.get ⟨i, hi⟩) = true →
      (l ++ r).find? p = some (l.get ⟨i, hi⟩) := by
  intro l
  induction l with
  | nil => intro r i hi; simp at hi
  | cons x l' ih =>
    intro r i hi hprev hp
    cases i with
    | zero =>
      simp only [List.get] at hp
      rw [List.cons_append, List.find?_cons_of_pos _ hp]
      rfl
    | succ i' =>
      have h0 : p x = false := by simpa using hprev 0 (Nat.succ_pos _)
      rw [List.cons_append, List.find?_cons_of_neg _ (by simp [h0])]
      have := ih r i' (by simpa using hi)
        (fun j hj => by simpa using hprev (j + 1) (Nat.succ_lt_succ hj))
        (by simpa using hp)
      simpa using this

theorem joinP_nameP {dir pv : PyPath} (h : pv.comps ≠ []) :
    (joinP dir pv).nameP = pv.nameP := by
  unfold joinP
  by_cases hab : pv.absolute
  · rw [if_pos hab]
  · rw [if_neg hab]
    show (dir.comps ++ pv.comps).getLastD [] = pv.comps.getLastD []
    cases hx : pv.comps.getLast? with
    | none =>
      exact absurd (List.getLast?_eq_none_iff.mp hx) h
    | some x =>
      simp [List.getLast?_append, hx]

theorem extCandidates_of_no_ext {dir : PyPath} {v : List Char}
    (hcomp : (pathOfString v).comps ≠ []) (hext : extOf (pathOfString v).nameP = []) :
    extCandidates dir v = IMG_EXTS.map fun e => joinP dir (pathOfString (v ++ e)) := by
  show (if (!(extOf (joinP dir (pathOfString v)).nameP).isEmpty) = true
    then [joinP dir (pathOfString v)]
    else IMG_EXTS.map fun e => joinP dir (pathOfString (v ++ e))) =
    IMG_EXTS.map fun e => joinP dir (pathOfString (v ++ e))
  rw [joinP_nameP hcomp, hext]
  rfl

/-- C7: when the normalized value has no file extension, `resolve_image`
generates one candidate per known image extension in the fixed order
`.png .jpg .jpeg .bmp .webp .gif` — first under `images_base`, then under
the document directory — checks them for existence in that order, and
returns the first existing (canonicalized) path. -/
theorem claim_C7 (fs : ResolveFS) (base otui_dir : PyPath) (val : List Char)
    (hval : val ≠ [])
    (hcomp : (pathOfString (normalizeVal val)).comps ≠ [])
    (hext : extOf (pathOfString (normalizeVal val)).nameP = []) :
    extCandidates base (normalizeVal val) =
      (IMG_EXTS.map fun e => joinP base (pathOfString (normalizeVal val ++ e))) ∧
    extCandidates otui_dir (normalizeVal val) =
      (IMG_EXTS.map fun e => joinP otui_dir (pathOfString (normalizeVal val ++ e))) ∧
    ∀ (i : Nat) (hi : i < (extCandidates base (normalizeVal val) ++
        extCandidates otui_dir (normalizeVal val)).length),
      (∀ j (hj : j < i),
        fs.pexists (fs.canon ((extCandidates base (normalizeVal val) ++
          extCandidates otui_dir (normalizeVal val)).get ⟨j, Nat.lt_trans hj hi⟩)) = false) →
      fs.pexists (fs.canon ((extCandidates base (normalizeVal val) ++
        extCandidates otui_dir (normalizeVal val)).get ⟨i, hi⟩)) = true →
      resolve_image fs (some base) otui_dir val =
        some (fs.canon ((extCandidates base (normalizeVal val) ++
          extCandidates otui_dir (normalizeVal val)).get ⟨i, hi⟩)) := by
  refine ⟨extCandidates_of_no_ext hcomp hext, extCandidates_of_no_ext hcomp hext, ?_⟩
  intro i hi hprev hp
  have hvne : val.isEmpty = false := by
    cases val with
    | nil => exact absurd rfl hval
    | cons c u => rfl
  simp only [resolve_image, hvne, Bool.false_eq_true, if_false]
  rw [firstExisting_eq_find fs _ [] (by intro s hs; simp at hs)]
  rw [find?_at_index (fun c => fs.pexists (fs.canon c))
    (extCandidates base (normalizeVal val) ++ extCandidates otui_dir (normalizeVal val))
    (walkCandidates fs (normalizeVal val)) i hi hprev hp]
  rfl

/-- Concrete filesystem for the C7 witness: only `base/icons/play.png`
exists, paths canonicalize to themselves. -/
def c7fs : ResolveFS :=
  ⟨fun p => p == PyPath.mk true [toL "base", toL "icons", toL "play.png"],
    fun p => p, []⟩

def c7base : PyPath := PyPath.mk true [toL "base"]

def c7doc : PyPath := PyPath.mk true [toL "doc"]

/-- C7 witness: `resolve(base, docDir, "icons/play")` returns
`base/icons/play.png`, the first candidate, when only it exists. -/
theorem claim_C7_witness :
    c7fs.pexists (c7fs.canon ((extCandidates c7base (normalizeVal (toL "icons/play")) ++
      extCandidates c7doc (normalizeVal (toL "icons/play"))).get ⟨0, by decide⟩)) = true ∧
    resolve_image c7fs (some c7base) c7doc (toL "icons/play") =
      some (c7fs.canon ((extCandidates c7base (normalizeVal (toL "icons/play")) ++
        extCandidates c7doc (normalizeVal (toL "icons/play"))).get ⟨0, by decide⟩)) :=
  ⟨by decide,
    (claim_C7 c7fs c7base c7doc (toL "icons/play") (by decide) (by decide) (by decide)).2.2
      0 (by decide) (fun j hj => absurd hj (by omega)) (by decide)⟩

/-- C3: with indentSize 2, the input `"panel\n  // note\n    child: x\n"`
parses to a tree in which `panel` has the comment node (depth 1) as its
child and the comment node has the node `child: x` (depth 2) as its child —
comment nodes participate fully in indentation nesting and can have
children. -/
theorem claim_C3 :
    parse_text 2 (toL "panel\n  // note\n    child: x\n") =
      .mk (toL "Root") [] (-1)
        [.mk (toL "panel") [] 0
          [.mk ['/', '/'] (toL "note") 1
            [.mk (toL "child") (toL "x") 2 []]]] := rfl

/-- C4: with indentSize 2, the lines `"a"`, `"  b: 1"`, `"   c: 2"` parse
so that `c` (3 leading spaces, depth 3 / 2 = 1 by floor division) pops the
equal-depth node `b` off the open-node stack and attaches as a sibling of
`b` under `a`, not as `b`'s child. -/
theorem claim_C4 :
    parse_text 2 (toL "a\n  b: 1\n   c: 2") =
      .mk (toL "Root") [] (-1)
        [.mk (toL "a") [] 0
          [.mk (toL "b") (toL "1") 1 [], .mk (toL "c") (toL "2") 1 []]] := rfl

/-! ### C9: quoting/whitespace invariance of `resolve_image` -/

theorem dropWhile_all_left (p : Char → Bool) :
    ∀ (l1 l2 : List Char), (∀ c ∈ l1, p c = true) →
      (l1 ++ l2).dropWhile p = l2.dropWhile p := by
  intro l1
  induction l1 with
  | nil => intro l2 _; rfl
  | cons a t ih =>
    intro l2 h
    rw [List.cons_append, List.dropWhile_cons_of_pos (h a (List.mem_cons_self a t))]
    exact ih l2 fun c hc => h c (List.mem_cons_of_mem a hc)

theorem dropWhile_head_stop (p : Char → Bool) :
    ∀ {l : List Char} {c : Char}, l.head? = some c → p c = false → l.dropWhile p = l := by
  intro l c hh hp
  cases l with
  | nil => cases hh
  | cons a t =>
    injection hh with he
    subst he
    exact List.dropWhile_cons_of_neg (by simp [hp])

/-- A `str.strip(c)` call leaves a string alone when neither end is `c`. -/
theorem stripCharBoth_id (c : Char) (v : List Char)
    (hh : ∀ d, v.head? = some d → d ≠ c) (hl : ∀ d, v.getLast? = some d → d ≠ c) :
    stripCharBoth c v = v := by
  unfold stripCharBoth
  cases v with
  | nil => rfl
  | cons a t =>
    have ha : a ≠ c := hh a rfl
    rw [List.dropWhile_cons_of_neg (by simp [ha])]
    cases hgl : (a :: t).getLast? with
    | none => exact absurd (List.getLast?_eq_none_iff.mp hgl) (by simp)
    | some d =>
      rw [dropWhile_head_stop _ (by rw [List.head?_reverse]; exact hgl)
        (by simp [hl d hgl]), List.reverse_reverse]

/-- A `str.strip(c)` call removes exactly one wrapping pair when the
inner string has neither end equal to `c`. -/
theorem stripCharBoth_wrap (c : Char) (v : List Char) (hne : v ≠ [])
    (hh : ∀ d, v.head? = some d → d ≠ c) (hl : ∀ d, v.getLast? = some d → d ≠ c) :
    stripCharBoth c (c :: (v ++ [c])) = v := by
  unfold stripCharBoth
  cases v with
  | nil => exact absurd rfl hne
  | cons a t =>
    have ha : a ≠ c := hh a rfl
    rw [List.dropWhile_cons_of_pos (by simp), List.cons_append,
      List.dropWhile_cons_of_neg (by simp [ha])]
    have h2 : (a :: (t ++ [c])).reverse = c :: (a :: t).reverse := by simp
    rw [h2, List.dropWhile_cons_of_pos (by simp)]
    cases hgl : (a :: t).getLast? with
    | none => exact absurd (List.getLast?_eq_none_iff.mp hgl) (by simp)
    | some d =>
      rw [dropWhile_head_stop _ (by rw [List.head?_reverse]; exact hgl)
        (by simp [hl d hgl]), List.reverse_reverse]

/-- `str.strip()` removes exactly the whitespace padding when the core
string has non-whitespace ends. -/
theorem pyStrip_pad (ws1 ws2 X : List Char)
    (hws1 : ∀ c ∈ ws1, isPySpace c = true) (hws2 : ∀ c ∈ ws2, isPySpace c = true)
    (hXh : ∀ c, X.head? = some c → isPySpace c = false)
    (hXl : ∀ c, X.getLast? = some c → isPySpace c = false) :
    pyStrip (ws1 ++ X ++ ws2) = X := by
  unfold pyStrip pyLstrip pyRstrip
  rw [List.append_assoc, dropWhile_all_left isPySpace ws1 (X ++ ws2) hws1]
  cases X with
  | nil =>
    have h2 : ws2.dropWhile isPySpace = [] := by
      have := dropWhile_all_left isPySpace ws2 [] hws2
      simpa using this
    simp [h2]
  | cons a t =>
    have ha : isPySpace a = false := hXh a rfl
    rw [List.cons_append, List.dropWhile_cons_of_neg (by simp [ha])]
    have h2 : (a :: (t ++ ws2)).reverse = ws2.reverse ++ (a :: t).reverse := by simp
    rw [h2, dropWhile_all_left isPySpace ws2.reverse _
      (fun c hc => hws2 c (List.mem_reverse.mp hc))]
    cases hgl : (a :: t).getLast? with
    | none => exact absurd (List.getLast?_eq_none_iff.mp hgl) (by simp)
    | some d =>
      rw [dropWhile_head_stop _ (by rw [List.head?_reverse]; exact hgl)
        (hXl d hgl), List.reverse_reverse]

/-- The full strip chain of `resolve_image`'s normalization removes
whitespace padding and one optional pair of quotes around a clean core. -/
theorem stripChain_pad (v ws1 ws2 qc : List Char)
    (hws1 : ∀ c ∈ ws1, isPySpace c = true) (hws2 : ∀ c ∈ ws2, isPySpace c = true)
    (hqc : qc = [] ∨ qc = [aposC] ∨ qc = [quotC])
    (hne : v ≠ [])
    (hh : ∀ c, v.head? = some c → (isPySpace c = false ∧ c ≠ aposC ∧ c ≠ quotC))
    (hl : ∀ c, v.getLast? = some c → (isPySpace c = false ∧ c ≠ aposC ∧ c ≠ quotC)) :
    stripCharBoth quotC (stripCharBoth aposC (pyStrip (ws1 ++ qc ++ v ++ qc ++ ws2))) = v := by
  have hassoc : ws1 ++ qc ++ v ++ qc ++ ws2 = ws1 ++ (qc ++ v ++ qc) ++ ws2 := by
    simp [List.append_assoc]
  have hXstrip : pyStrip (ws1 ++ qc ++ v ++ qc ++ ws2) = qc ++ v ++ qc := by
    rw [hassoc]
    refine pyStrip_pad ws1 ws2 (qc ++ v ++ qc) hws1 hws2 ?_ ?_
    · intro c hc
      rcases hqc with h | h | h
      · subst h
        simp only [List.nil_append, List.append_nil] at hc
        exact (hh c hc).1
      · subst h
        have hc2 : c = aposC := by
          simp only [List.cons_append, List.nil_append, List.head?_cons,
            Option.some.injEq] at hc
          exact hc.symm
        subst hc2
        decide
      · subst h
        have hc2 : c = quotC := by
          simp only [List.cons_append, List.nil_append, List.head?_cons,
            Option.some.injEq] at hc
          exact hc.symm
        subst hc2
        decide
    · intro c hc
      rcases hqc with h | h | h
      · subst h
        simp only [List.nil_append, List.append_nil] at hc
        exact (hl c hc).1
      · subst h
        rw [List.getLast?_concat] at hc
        injection hc with he
        subst he
        decide
      · subst h
        rw [List.getLast?_concat] at hc
        injection hc with he
        subst he
        decide
  rw [hXstrip]
  rcases hqc with h | h | h
  · subst h
    simp only [List.nil_append, List.append_nil]
    rw [stripCharBoth_id aposC v (fun d hd => (hh d hd).2.1) (fun d hd => (hl d hd).2.1)]
    exact stripCharBoth_id quotC v (fun d hd => (hh d hd).2.2) (fun d hd => (hl d hd).2.2)
  · subst h
    have hform : [aposC] ++ v ++ [aposC] = aposC :: (v ++ [aposC]) := by simp
    rw [hform, stripCharBoth_wrap aposC v hne
      (fun d hd => (hh d hd).2.1) (fun d hd => (hl d hd).2.1)]
    exact stripCharBoth_id quotC v (fun d hd => (hh d hd).2.2) (fun d hd => (hl d hd).2.2)
  · subst h
    have hform : [quotC] ++ v ++ [quotC] = quotC :: (v ++ [quotC]) := by simp
    have hq1 : stripCharBoth aposC (quotC :: (v ++ [quotC])) = quotC :: (v ++ [quotC]) := by
      refine stripCharBoth_id aposC _ ?_ ?_
      · intro d hd
        simp only [List.head?_cons, Option.some.injEq] at hd
        subst hd
        decide
      · intro d hd
        have hform2 : quotC :: (v ++ [quotC]) = (quotC :: v) ++ [quotC] := by simp
        rw [hform2, List.getLast?_concat] at hd
        injection hd with he
        subst he
        decide
    rw [hform, hq1]
    exact stripCharBoth_wrap quotC v hne
      (fun d hd => (hh d hd).2.2) (fun d hd => (hl d hd).2.2)

/-- A clean edge character: not whitespace, not an apostrophe, not a
double quote. -/
def cleanEdge (c : Char) : Bool := !(isPySpace c) && !(c == aposC) && !(c == quotC)

/-- A clean value: nonempty, with clean first and last characters. -/
def cleanValB (v : List Char) : Bool :=
  match v.head?, v.getLast? with
  | some a, some b => cleanEdge a && cleanEdge b
  | _, _ => false

/-- C9 (amended): `resolve_image` is invariant under decorating a clean
value with leading/trailing whitespace and one optional pair of matching
single or double quotes. -/
theorem claim_C9_amended (fs : ResolveFS) (b : Option PyPath) (dir : PyPath)
    (v ws1 ws2 qc : List Char)
    (hws1 : ws1.all isPySpace = true) (hws2 : ws2.all isPySpace = true)
    (hqc : qc = [] ∨ qc = [aposC] ∨ qc = [quotC])
    (hclean : cleanValB v = true) :
    resolve_image fs b dir (ws1 ++ qc ++ v ++ qc ++ ws2) = resolve_image fs b dir v := by
  have hne : v ≠ [] := by
    intro h
    subst h
    exact absurd hclean (by decide)
  obtain ⟨a0, ha0⟩ : ∃ a, v.head? = some a := by
    cases hv : v.head? with
    | none => exact absurd (List.head?_eq_none_iff.mp hv) hne
    | some a => exact ⟨a, rfl⟩
  obtain ⟨b0, hb0⟩ : ∃ d, v.getLast? = some d := by
    cases hv : v.getLast? with
    | none => exact absurd (List.getLast?_eq_none_iff.mp hv) hne
    | some d => exact ⟨d, rfl⟩
  have hce : (cleanEdge a0 && cleanEdge b0) = true := by
    unfold cleanValB at hclean
    rw [ha0, hb0] at hclean
    exact hclean
  have hce2 : cleanEdge a0 = true ∧ cleanEdge b0 = true := by
    simpa using hce
  have hedge : ∀ c, cleanEdge c = true → (isPySpace c = false ∧ c ≠ aposC ∧ c ≠ quotC) := by
    intro c hc
    unfold cleanEdge at hc
    simp only [Bool.and_eq_true, Bool.not_eq_true'] at hc
    refine ⟨hc.1.1, ?_, ?_⟩
    · intro he
      rw [he] at hc
      simp at hc
    · intro he
      rw [he] at hc
      simp at hc
  have hh : ∀ c, v.head? = some c → (isPySpace c = false ∧ c ≠ aposC ∧ c ≠ quotC) := by
    intro c hcc
    rw [ha0] at hcc
    injection hcc with he
    subst he
    exact hedge a0 hce2.1
  have hl : ∀ c, v.getLast? = some c → (isPySpace c = false ∧ c ≠ aposC ∧ c ≠ quotC) := by
    intro c hcc
    rw [hb0] at hcc
    injection hcc with he
    subst he
    exact hedge b0 hce2.2
  have hstrip := stripChain_pad v ws1 ws2 qc
    (fun c hc => List.all_eq_true.mp hws1 c hc)
    (fun c hc => List.all_eq_true.mp hws2 c hc) hqc hne hh hl
  have hv2 := stripChain_pad v [] [] [] (by simp) (by simp) (Or.inl rfl) hne hh hl
  simp only [List.nil_append, List.append_nil] at hv2
  have hnorm : normalizeVal (ws1 ++ qc ++ v ++ qc ++ ws2) = normalizeVal v := by
    unfold normalizeVal
    rw [hstrip, hv2]
  have hsne : (ws1 ++ qc ++ v ++ qc ++ ws2).isEmpty = false := by
    simp only [List.isEmpty_eq_false, ne_eq, List.append_eq_nil]
    intro hcontra
    exact hne hcontra.1.1.2
  have hvne2 : v.isEmpty = false := by
    simp [List.isEmpty_eq_false, hne]
  simp only [resolve_image, hsne, hvne2, Bool.false_eq_true, if_false, hnorm]

/-- Concrete filesystem for C9: only `d/x.png` exists, paths canonicalize
to themselves, no walk entries. -/
def c9fs : ResolveFS :=
  ⟨fun p => p == PyPath.mk true [toL "d", toL "x.png"], fun p => p, []⟩

def c9dir : PyPath := PyPath.mk true [toL "d"]

def c9base : PyPath := PyPath.mk true [toL "base"]

/-- C9 counterexample: for the value `x` followed by an apostrophe,
wrapping it in double quotes changes the result: unwrapped, the trailing
apostrophe is stripped and `d/x.png` is found; wrapped, the quote strip
runs after the apostrophe strip, the apostrophe survives, and nothing is
found. -/
theorem claim_C9_counterexample :
    resolve_image c9fs none c9dir ([quotC] ++ ['x', aposC] ++ [quotC]) ≠
      resolve_image c9fs none c9dir ['x', aposC] := by decide

/-- C9 witness: for the clean value `images/x.png`, wrapping in spaces and
single quotes does not change the result. -/
theorem claim_C9_witness :
    resolve_image c9fs (some c9base) c9dir
      (toL "  " ++ [aposC] ++ toL "images/x.png" ++ [aposC] ++ toL "  ") =
      resolve_image c9fs (some c9base) c9dir (toL "images/x.png") :=
  claim_C9_amended c9fs (some c9base) c9dir (toL "images/x.png") (toL "  ") (toL "  ")
    [aposC] (by decide) (by decide) (Or.inr (Or.inl rfl)) (by decide)

/-! ### C5: the strategy-3 lua scan -/

/-- The per-file hit count toward a given folder, following the spec: a
readable script file contributes one hit per matching double-quoted
literal whose `(scriptFileDir / extractedPath).parent` is that folder; an
unreadable file contributes nothing. -/
def perFileCount (w : PyPath) (f : FileRec) (p : PyPath) : Nat :=
  if (toL ".lua").isSuffixOf (lowerL f.fname) then
    match f.content with
    | some txt =>
      (findLits txt).countP fun lit =>
        decide ((joinP w (pathOfString lit)).parentP = p)
    | none => 0
  else 0

/-- The spec-side total count of a folder: the sum over all walked
directories and their script files of the per-file hits. -/
def specLuaCount (walk : List WalkEntry) (p : PyPath) : Nat :=
  (walk.map fun e => ((e.files.map fun f => perFileCount e.wdir f p).sum)).sum

theorem alGetD_alSet (k : PyPath) (v : Nat) (p : PyPath) :
    ∀ h : List (PyPath × Nat),
      alGetD (alSet h k v) p = if k = p then v else alGetD h p := by
  intro h
  induction h with
  | nil =>
    show (if k = p then v else 0) = if k = p then v else 0
    rfl
  | cons kv rest ih =>
    by_cases hk : kv.1 = k
    · rw [alSet, if_pos hk]
      simp only [alGetD]
      by_cases hp : k = p
      · rw [if_pos hp, if_pos hp]
      · rw [if_neg hp, if_neg hp, if_neg (fun he => hp (hk.symm.trans he))]
    · rw [alSet, if_neg hk]
      simp only [alGetD, ih]
      by_cases hp : kv.1 = p
      · rw [if_pos hp, if_pos hp, if_neg (fun he => hk (hp.trans he.symm))]
      · rw [if_neg hp, if_neg hp]

theorem alGetD_alBump (h : List (PyPath × Nat)) (k p : PyPath) :
    alGetD (alBump h k) p = alGetD h p + if k = p then 1 else 0 := by
  unfold alBump
  rw [alGetD_alSet]
  by_cases hp : k = p
  · rw [if_pos hp, if_pos hp, hp]
  · rw [if_neg hp, if_neg hp]
    omega

theorem alGetD_foldl_bump (g : List Char → PyPath) (p : PyPath) :
    ∀ (lits : List (List Char)) (h : List (PyPath × Nat)),
      alGetD (lits.foldl (fun h3 lit => alBump h3 (g lit)) h) p =
        alGetD h p + lits.countP fun lit => decide (g lit = p) := by
  intro lits
  induction lits with
  | nil => intro h; simp [List.countP_nil]
  | cons a t ih =>
    intro h
    rw [List.foldl_cons, ih, alGetD_alBump, List.countP_cons]
    by_cases hg : g a = p
    · simp [hg]
      omega
    · simp [hg]

theorem alGetD_luaFileStep (w : PyPath) (h : List (PyPath × Nat)) (f : FileRec)
    (p : PyPath) :
    alGetD (luaFileStep w h f) p = alGetD h p + perFileCount w f p := by
  unfold luaFileStep perFileCount
  by_cases hsuf : (toL ".lua").isSuffixOf (lowerL f.fname) = true
  · rw [if_pos hsuf, if_pos hsuf]
    cases f.content with
    | none =>
      show alGetD h p = alGetD h p + 0
      omega
    | some txt => exact alGetD_foldl_bump _ p (findLits txt) h
  · rw [if_neg hsuf, if_neg hsuf]
    show alGetD h p = alGetD h p + 0
    omega

theorem alGetD_luaDirStep (e : WalkEntry) (p : PyPath) :
    ∀ (files : List FileRec) (h : List (PyPath × Nat)),
      alGetD (files.foldl (luaFileStep e.wdir) h) p =
        alGetD h p + (files.map fun f => perFileCount e.wdir f p).sum := by
  intro files
  induction files with
  | nil => intro h; simp
  | cons f fr ih =>
    intro h
    rw [List.foldl_cons, ih, alGetD_luaFileStep, List.map_cons, List.sum_cons]
    omega

theorem alGetD_luaDir (e : WalkEntry) (h : List (PyPath × Nat)) (p : PyPath) :
    alGetD (luaDirStep h e) p =
      alGetD h p + (e.files.map fun f => perFileCount e.wdir f p).sum := by
  unfold luaDirStep
  exact alGetD_luaDirStep e p e.files h

theorem luaHits_count_aux (p : PyPath) :
    ∀ (walk : List WalkEntry) (h : List (PyPath × Nat)),
      alGetD (walk.foldl luaDirStep h) p = alGetD h p + specLuaCount walk p := by
  intro walk
  induction walk with
  | nil => intro h; simp [specLuaCount]
  | cons e w ih =>
    intro h
    rw [List.foldl_cons, ih, alGetD_luaDir e h p]
    simp only [specLuaCount, List.map_cons, List.sum_cons]
    omega

/-- The dict built by the lua scan holds exactly the spec's counts. -/
theorem luaHits_count (walk : List WalkEntry) (p : PyPath) :
    alGetD (luaHits walk) p = specLuaCount walk p := by
  unfold luaHits
  rw [luaHits_count_aux p walk []]
  show 0 + specLuaCount walk p = specLuaCount walk p
  omega

/-- An unreadable file contributes nothing to the scan. -/
theorem luaFileStep_unreadable (w : PyPath) (h : List (PyPath × Nat))
    (nm : List Char) :
    luaFileStep w h ⟨nm, none⟩ = h := by
  unfold luaFileStep
  by_cases hsuf : (toL ".lua").isSuffixOf (lowerL nm) = true
  · rw [if_pos hsuf]
  · rw [if_neg hsuf]

/-- Removing an unreadable file from the walk leaves the scan unchanged:
the failed read is skipped and the scan continues. -/
theorem luaHits_skip_unreadable (w1 w2 : List WalkEntry) (d : PyPath)
    (fr1 fr2 : List FileRec) (nm : List Char) :
    luaHits (w1 ++ ⟨d, fr1 ++ ⟨nm, none⟩ :: fr2⟩ :: w2) =
      luaHits (w1 ++ ⟨d, fr1 ++ fr2⟩ :: w2) := by
  unfold luaHits
  rw [List.foldl_append, List.foldl_append, List.foldl_cons, List.foldl_cons]
  have hdir : ∀ h, luaDirStep h ⟨d, fr1 ++ ⟨nm, none⟩ :: fr2⟩ =
      luaDirStep h ⟨d, fr1 ++ fr2⟩ := by
    intro h
    unfold luaDirStep
    show (fr1 ++ ⟨nm, none⟩ :: fr2).foldl (luaFileStep d) h =
      (fr1 ++ fr2).foldl (luaFileStep d) h
    rw [List.foldl_append, List.foldl_append, List.foldl_cons,
      luaFileStep_unreadable]
  rw [hdir]

/-- Keys of the association lists built by `alSet` are distinct. -/
def keysOK (l : List (PyPath × Nat)) : Prop :=
  l.Pairwise fun a b => a.1 ≠ b.1

theorem alSet_mem (k : PyPath) (v : Nat) :
    ∀ (l : List (PyPath × Nat)) (x : PyPath × Nat),
      x ∈ alSet l k v → x.1 = k ∨ x ∈ l := by
  intro l
  induction l with
  | nil =>
    intro x hx
    rcases List.mem_singleton.mp hx with h
    exact Or.inl (h ▸ rfl)
  | cons kv rest ih =>
    intro x hx
    by_cases hk : kv.1 = k
    · rw [alSet, if_pos hk] at hx
      rcases List.mem_cons.mp hx with h | h
      · exact Or.inl (h ▸ rfl)
      · exact Or.inr (List.mem_cons_of_mem kv h)
    · rw [alSet, if_neg hk] at hx
      rcases List.mem_cons.mp hx with h | h
      · exact Or.inr (h ▸ List.mem_cons_self kv rest)
      · rcases ih x h with h2 | h2
        · exact Or.inl h2
        · exact Or.inr (List.mem_cons_of_mem kv h2)

theorem keysOK_alSet (k : PyPath) (v : Nat) :
    ∀ l : List (PyPath × Nat), keysOK l → keysOK (alSet l k v) := by
  intro l
  induction l with
  | nil => intro _; exact List.pairwise_singleton _ _
  | cons kv rest ih =>
    intro hOK
    rcases List.pairwise_cons.mp hOK with ⟨hhd, htl⟩
    by_cases hk : kv.1 = k
    · rw [alSet, if_pos hk]
      exact List.pairwise_cons.mpr ⟨fun b hb => hk ▸ hhd b hb, htl⟩
    · rw [alSet, if_neg hk]
      refine List.pairwise_cons.mpr ⟨?_, ih htl⟩
      intro b hb
      rcases alSet_mem k v rest b hb with h | h
      · exact h ▸ hk
      · exact hhd b h

theorem keysOK_foldl_bump (g : List Char → PyPath) :
    ∀ (lits : List (List Char)) (h : List (PyPath × Nat)),
      keysOK h → keysOK (lits.foldl (fun h3 lit => alBump h3 (g lit)) h) := by
  intro lits
  induction lits with
  | nil => intro h hOK; exact hOK
  | cons a t ih =>
    intro h hOK
    rw [List.foldl_cons]
    exact ih _ (keysOK_alSet _ _ h hOK)

theorem keysOK_luaFileStep (w : PyPath) (h : List (PyPath × Nat)) (f : FileRec)
    (hOK : keysOK h) : keysOK (luaFileStep w h f) := by
  unfold luaFileStep
  by_cases hsuf : (toL ".lua").isSuffixOf (lowerL f.fname) = true
  · rw [if_pos hsuf]
    cases f.content with
    | none => exact hOK
    | some txt => exact keysOK_foldl_bump _ (findLits txt) h hOK
  · rw [if_neg hsuf]
    exact hOK

theorem keysOK_luaDirStep (e : WalkEntry) :
    ∀ (files : List FileRec) (h : List (PyPath × Nat)),
      keysOK h → keysOK (files.foldl (luaFileStep e.wdir) h) := by
  intro files
  induction files with
  | nil => intro h hOK; exact hOK
  | cons f fr ih =>
    intro h hOK
    rw [List.foldl_cons]
    exact ih _ (keysOK_luaFileStep e.wdir h f hOK)

theorem keysOK_luaHits (walk : List WalkEntry) : keysOK (luaHits walk) := by
  unfold luaHits
  have haux : ∀ (w : List WalkEntry) (h : List (PyPath × Nat)),
      keysOK h → keysOK (w.foldl luaDirStep h) := by
    intro w
    induction w with
    | nil => intro h hOK; exact hOK
    | cons e w2 ih =>
      intro h hOK
      rw [List.foldl_cons]
      exact ih _ (keysOK_luaDirStep e e.files h hOK)
  exact haux walk [] List.Pairwise.nil

theorem alArgmax_spec :
    ∀ (l : List (PyPath × Nat)) (best : PyPath × Nat),
      (alArgmax l best = best ∨ alArgmax l best ∈ l) ∧
      best.2 ≤ (alArgmax l best).2 ∧
      ∀ kv ∈ l, kv.2 ≤ (alArgmax l best).2 := by
  intro l
  induction l with
  | nil => intro best; exact ⟨Or.inl rfl, Nat.le_refl _, fun kv hkv => absurd hkv (by simp)⟩
  | cons kv rest ih =>
    intro best
    rw [alArgmax]
    by_cases hlt : best.2 < kv.2
    · rw [if_pos hlt]
      rcases ih kv with ⟨hmem, hle, hall⟩
      refine ⟨?_, Nat.le_trans (Nat.le_of_lt hlt) hle, ?_⟩
      · rcases hmem with h | h
        · exact Or.inr (by rw [h]; exact List.mem_cons_self kv rest)
        · exact Or.inr (List.mem_cons_of_mem kv h)
      · intro kv2 hkv2
        rcases List.mem_cons.mp hkv2 with h | h
        · subst h
          exact hle
        · exact hall kv2 h
    · rw [if_neg hlt]
      rcases ih best with ⟨hmem, hle, hall⟩
      refine ⟨?_, hle, ?_⟩
      · rcases hmem with h | h
        · exact Or.inl h
        · exact Or.inr (List.mem_cons_of_mem kv h)
      · intro kv2 hkv2
        rcases List.mem_cons.mp hkv2 with h | h
        · subst h
          exact Nat.le_trans (Nat.le_of_not_lt hlt) hle
        · exact hall kv2 h

theorem alMax_spec (l : List (PyPath × Nat)) (m : PyPath × Nat)
    (hm : alMax l = some m) : m ∈ l ∧ ∀ kv ∈ l, kv.2 ≤ m.2 := by
  cases l with
  | nil => cases hm
  | cons kv rest =>
    rw [alMax] at hm
    injection hm with hm2
    rcases alArgmax_spec rest kv with ⟨hmem, hle, hall⟩
    subst hm2
    refine ⟨?_, ?_⟩
    · rcases hmem with h | h
      · rw [h]; exact List.mem_cons_self kv rest
      · exact List.mem_cons_of_mem kv h
    · intro kv2 hkv2
      rcases List.mem_cons.mp hkv2 with h | h
      · subst h
        exact hle
      · exact hall kv2 h

theorem alGetD_of_mem :
    ∀ (l : List (PyPath × Nat)), keysOK l → ∀ kv ∈ l, alGetD l kv.1 = kv.2 := by
  intro l
  induction l with
  | nil => intro _ kv hkv; exact absurd hkv (by simp)
  | cons hd rest ih =>
    intro hOK kv hkv
    rcases List.pairwise_cons.mp hOK with ⟨hhd, htl⟩
    rcases List.mem_cons.mp hkv with h | h
    · subst h
      rw [alGetD, if_pos rfl]
    · rw [alGetD, if_neg (hhd kv h), ih htl kv h]

theorem alGetD_bound (n : Nat) :
    ∀ (l : List (PyPath × Nat)), (∀ kv ∈ l, kv.2 ≤ n) →
      ∀ q, alGetD l q ≤ n := by
  intro l
  induction l with
  | nil => intro _ q; exact Nat.zero_le n
  | cons hd rest ih =>
    intro hall q
    rw [alGetD]
    by_cases hq : hd.1 = q
    · rw [if_pos hq]
      exact hall hd (List.mem_cons_self hd rest)
    · rw [if_neg hq]
      exact ih (fun kv hkv => hall kv (List.mem_cons_of_mem hd hkv)) q

/-- C5: when strategies 1 and 2 fail, base discovery is exactly the lua
scan: the scan counts one hit of `(scriptFileDir / extractedPath).parent`
per matching double-quoted literal of each readable `.lua` file, an
unreadable script file is skipped with the scan continuing, a returned
folder is a real directory of maximal count, and the result is absent
(never an exception — the model is a total function) only when the scan
also fails. -/
theorem claim_C5 (fs : DiscoverFS) (otui_path : PyPath) (root : OTUINode)
    (h1 : firstLikely fs otui_path.parentP LIKELY_DIRS = none)
    (h2 : strategy2 fs root = none) :
    discover_images_base otui_path fs root = strategy3 fs ∧
    (∀ p : PyPath, alGetD (luaHits fs.walk) p = specLuaCount fs.walk p) ∧
    (∀ (w1 w2 : List WalkEntry) (d : PyPath) (fr1 fr2 : List FileRec)
        (nm : List Char),
      luaHits (w1 ++ ⟨d, fr1 ++ ⟨nm, none⟩ :: fr2⟩ :: w2) =
        luaHits (w1 ++ ⟨d, fr1 ++ fr2⟩ :: w2)) ∧
    (∀ p, strategy3 fs = some p →
      fs.isDir p = true ∧
      ∀ q, specLuaCount fs.walk q ≤ specLuaCount fs.walk p) ∧
    (discover_images_base otui_path fs root = none → strategy3 fs = none) := by
  have hA : discover_images_base otui_path fs root = strategy3 fs := by
    show (match firstLikely fs otui_path.parentP LIKELY_DIRS with
      | some p => some p
      | none =>
        match strategy2 fs root with
        | some p => some p
        | none => strategy3 fs) = strategy3 fs
    rw [h1, h2]
  refine ⟨hA, fun p => luaHits_count fs.walk p, luaHits_skip_unreadable, ?_, ?_⟩
  · intro p hp3
    unfold strategy3 at hp3
    cases hmax : alMax (luaHits fs.walk) with
    | none =>
      rw [hmax] at hp3
      cases (show (none : Option PyPath) = some p from hp3)
    | some best =>
      rw [hmax] at hp3
      have hp3b : (if fs.isDir best.1 = true then some best.1 else none) = some p := hp3
      by_cases hdir : fs.isDir best.1 = true
      · rw [if_pos hdir] at hp3b
        injection hp3b with hp4
        subst hp4
        rcases alMax_spec _ best hmax with ⟨hmem, hbound⟩
        refine ⟨hdir, ?_⟩
        intro q
        rw [← luaHits_count, ← luaHits_count]
        rw [alGetD_of_mem _ (keysOK_luaHits fs.walk) best hmem]
        exact alGetD_bound best.2 _ hbound q
      · rw [if_neg hdir] at hp3b
        cases hp3b
  · intro hnone
    rw [hA] at hnone
    exact hnone

/-- Concrete setup for the C5 witness: one walked directory `m` holding
one readable lua script that references `gfx/a.png`; only `m/gfx` is a
directory; the tree has no image-source node. -/
def c5walk : List WalkEntry :=
  [⟨PyPath.mk true [toL "m"],
    [⟨toL "a.lua", some ([quotC] ++ toL "gfx/a.png" ++ [quotC])⟩]⟩]

def c5fs : DiscoverFS :=
  ⟨c5walk, fun p => p == PyPath.mk true [toL "m", toL "gfx"]⟩

def c5path : PyPath := PyPath.mk true [toL "m", toL "x.otui"]

def c5root : OTUINode := .mk (toL "Root") [] (-1) []

def c5gfx : PyPath := PyPath.mk true [toL "m", toL "gfx"]

/-- C5 witness: with strategies 1 and 2 failing, discovery equals the lua
scan, and the returned folder `m/gfx` is a directory of maximal count. -/
theorem claim_C5_witness :
    discover_images_base c5path c5fs c5root = strategy3 c5fs ∧
    (c5fs.isDir c5gfx = true ∧
      ∀ q, specLuaCount c5fs.walk q ≤ specLuaCount c5fs.walk c5gfx) :=
  ⟨(claim_C5 c5fs c5path c5root (by decide) (by decide)).1,
    (claim_C5 c5fs c5path c5root (by decide) (by decide)).2.2.2.1 c5gfx (by decide)⟩
